import Mathlib

set_option maxRecDepth 8000
set_option maxHeartbeats 1000000

/-!
Verification of the SteamForensics Volatility plugin (steam_forensics.py) and
its post-processing script (postprocess.py).

Bytes are modelled as natural numbers (values 0..255), byte buffers as lists of
naturals, and Python strings as Lean strings (character lists compared by code
point, as CPython does for ASCII data).  While-loops of the source are embedded
as fuel-based structural recursions whose fuel provably suffices, so that every
definition is executable by kernel reduction.
-/

namespace SteamForensics

/-! ## Byte-level helpers (steam_forensics.py) -/

/-- A byte in the printable ASCII range, the character class of the regex
template for ASCII runs (space 0x20 through tilde 0x7E). -/
def printableB (b : Nat) : Bool := 32 ≤ b && b ≤ 126

/-- An ASCII digit byte (the byte-regex digit class). -/
def isDigitB (b : Nat) : Bool := 48 ≤ b && b ≤ 57

/-- Bytes of an ASCII string literal. -/
def strToBytes (s : String) : List Nat := s.data.map Char.toNat

/-- Lower-casing of a byte, used to model the IGNORECASE regex flags. -/
def lowerByte (b : Nat) : Nat := if 65 ≤ b && b ≤ 90 then b + 32 else b

/-! ## RangeIterator: SteamCarver._layer_read_chunks

The source walks one mapped range with
  cursor = virt_start; step = max(1, chunk_size - overlap)
  while cursor < virt_end:
      read_len = min(chunk_size, virt_end - cursor)
      try: data = layer.read(cursor, read_len)
      except InvalidAddressException: cursor += step; continue
      yield cursor, data; cursor += step
The while loop is embedded with fuel (virt_end - virt_start); since the step
is at least 1 this fuel bounds the number of iterations. -/

/-- The cursor step of the chunk loop: max(1, chunk_size - overlap). -/
def chunkStep (chunkSize overlap : Nat) : Nat := max 1 (chunkSize - overlap)

/-- One mapped range of the all-reads-succeed chunk loop: the emitted
(cursor, read_len) pairs. -/
def chunksAux (chunkSize stepN stop : Nat) : Nat → Nat → List (Nat × Nat)
  | 0, _ => []
  | fuel + 1, cursor =>
    if cursor < stop then
      (cursor, min chunkSize (stop - cursor)) ::
        chunksAux chunkSize stepN stop fuel (cursor + stepN)
    else []

/-- The chunk addresses and lengths produced for the mapped range
[virtStart, virtEnd) when every read succeeds. -/
def layer_read_chunks (chunkSize overlap virtStart virtEnd : Nat) : List (Nat × Nat) :=
  chunksAux chunkSize (chunkStep chunkSize overlap) virtEnd (virtEnd - virtStart) virtStart

/-- The chunk loop with an explicit read function: reading cursor/length may
fail (none models a raised InvalidAddressException, caught by the loop). -/
def chunksAuxRead {β : Type} (chunkSize stepN stop : Nat) (readFn : Nat → Nat → Option β) :
    Nat → Nat → List (Nat × β)
  | 0, _ => []
  | fuel + 1, cursor =>
    if cursor < stop then
      match readFn cursor (min chunkSize (stop - cursor)) with
      | some d =>
        (cursor, d) :: chunksAuxRead chunkSize stepN stop readFn fuel (cursor + stepN)
      | none => chunksAuxRead chunkSize stepN stop readFn fuel (cursor + stepN)
    else []

/-- The chunks yielded for [virtStart, virtEnd) under a fallible read. -/
def layer_read_chunks_read {β : Type} (chunkSize overlap virtStart virtEnd : Nat)
    (readFn : Nat → Nat → Option β) : List (Nat × β) :=
  chunksAuxRead chunkSize (chunkStep chunkSize overlap) virtEnd readFn
    (virtEnd - virtStart) virtStart

/-- All chunks of a list of mapped ranges (the outer for-loop over
layer.mapping), all reads succeeding. -/
def rangesChunks (chunkSize overlap : Nat) : List (Nat × Nat) → List (Nat × Nat)
  | [] => []
  | (s, e) :: rs => layer_read_chunks chunkSize overlap s e ++ rangesChunks chunkSize overlap rs

/-- All chunks of a list of mapped ranges under a fallible read. -/
def rangesChunksRead {β : Type} (chunkSize overlap : Nat) (readFn : Nat → Nat → Option β) :
    List (Nat × Nat) → List (Nat × β)
  | [] => []
  | (s, e) :: rs =>
      layer_read_chunks_read chunkSize overlap s e readFn ++
        rangesChunksRead chunkSize overlap readFn rs

/-- Interval overlap (in bytes) of each consecutive pair of chunks: for chunks
(c1, l1), (c2, l2) with c1 ≤ c2 and c1+l1 ≤ c2+l2 the shared bytes number
c1 + l1 - c2 (truncated at 0). -/
def pairOverlaps (l : List (Nat × Nat)) : List Nat :=
  (l.zip l.tail).map (fun pq => pq.1.1 + pq.1.2 - pq.2.1)

/-! ## StringExtractor: iter_strings

iter_strings runs finditer of the greedy regex [ -~]{minlen,} over the chunk,
then (when scan_unicode) finditer of (?:[ -~]\x00){minlen,}.  finditer emits
non-overlapping leftmost greedy matches: at each position the greedy match is
attempted; on success the scan resumes at the match end, otherwise one byte
further.  Both scans are embedded with fuel = buffer length (each step consumes
at least one byte). -/

/-- One finditer pass of the ASCII run regex: at a printable byte take the
maximal printable run; emit it when its length reaches minlen; resume after
the run (positions inside a too-short maximal run cannot start a new run). -/
def scanAsciiAux (minlen : Nat) : Nat → Nat → List Nat → List (Nat × List Nat)
  | 0, _, _ => []
  | _ + 1, _, [] => []
  | fuel + 1, pos, b :: rest =>
    if printableB b then
      let run := b :: rest.takeWhile printableB
      let rest2 := rest.dropWhile printableB
      if minlen ≤ run.length then
        (pos, run) :: scanAsciiAux minlen fuel (pos + run.length) rest2
      else scanAsciiAux minlen fuel (pos + run.length) rest2
    else scanAsciiAux minlen fuel (pos + 1) rest

/-- The ASCII matches of a chunk, as (relative offset, raw bytes). -/
def ascii_strings (buf : List Nat) (minlen : Nat) : List (Nat × List Nat) :=
  scanAsciiAux minlen buf.length 0 buf

/-- Number of leading printable-byte/NUL pairs of a buffer (the greedy
repetition count of the UTF-16LE pair regex). -/
def u16Chain : List Nat → Nat
  | b1 :: b2 :: t => if printableB b1 && b2 == 0 then u16Chain t + 1 else 0
  | _ => 0

/-- One finditer pass of the UTF-16LE pair regex: at each position count the
greedy pair chain; on a match of k >= minlen pairs emit 2k bytes and resume
after them, otherwise advance one byte. -/
def scanU16Aux (minlen : Nat) : Nat → Nat → List Nat → List (Nat × List Nat)
  | 0, _, _ => []
  | _ + 1, _, [] => []
  | fuel + 1, pos, b :: rest =>
    let k := u16Chain (b :: rest)
    if minlen ≤ k ∧ 1 ≤ k then
      (pos, (b :: rest).take (2 * k)) ::
        scanU16Aux minlen fuel (pos + 2 * k) ((b :: rest).drop (2 * k))
    else scanU16Aux minlen fuel (pos + 1) rest

/-- The UTF-16LE matches of a chunk, as (relative offset, raw bytes). -/
def unicode_strings (buf : List Nat) (minlen : Nat) : List (Nat × List Nat) :=
  scanU16Aux minlen buf.length 0 buf

/-- iter_strings: the ASCII pass followed, when scan_unicode is set, by the
UTF-16LE pass (each pass yielded in full before the next starts, exactly as
the two for-loops of the source run one after the other). -/
def iter_strings (buf : List Nat) (minlen : Nat) (scan_unicode : Bool) :
    List (Nat × List Nat) :=
  ascii_strings buf minlen ++ if scan_unicode then unicode_strings buf minlen else []

/-- Spec-side description of an ASCII candidate: the run at offset off is the
maximal printable run there (takeWhile of the suffix), long enough, non-empty,
and not extendable to the left. -/
def asciiRunAt (minlen : Nat) (buf : List Nat) (off : Nat) (run : List Nat) : Prop :=
  run = (buf.drop off).takeWhile printableB ∧ minlen ≤ run.length ∧ run ≠ [] ∧
    (off = 0 ∨ printableB (buf.getD (off - 1) 0) = false)

/-- Spec-side description of a UTF-16LE candidate: at offset off the greedy
pair chain has length k with minlen ≤ k, 1 ≤ k, the run is its 2k bytes, and
the chain cannot be extended by a pair immediately to the left. -/
def u16RunAt (minlen : Nat) (buf : List Nat) (off : Nat) (run : List Nat) : Prop :=
  minlen ≤ u16Chain (buf.drop off) ∧ 1 ≤ u16Chain (buf.drop off) ∧
    run = (buf.drop off).take (2 * u16Chain (buf.drop off)) ∧
    ¬(2 ≤ off ∧ printableB (buf.getD (off - 2) 0) = true ∧ buf.getD (off - 1) 0 = 0)

/-! ## Classifier: match_kind and the three detectors

re.search existence is modelled by trying the anchored match at every suffix
of the buffer.  IGNORECASE patterns are matched against the lower-cased
buffer. -/

/-- First suffix position (0-based) at which the anchored predicate holds. -/
def searchFrom (p : List Nat → Bool) : List Nat → Option Nat
  | [] => if p [] then some 0 else none
  | b :: t => if p (b :: t) then some 0 else (searchFrom p t).map (· + 1)

/-- re.search success of an anchored-match predicate. -/
def hasMatch (p : List Nat → Bool) (l : List Nat) : Bool := (searchFrom p l).isSome

/-- Literal prefix test on byte lists. -/
def bytesStart (pre l : List Nat) : Bool := l.take pre.length == pre

/-- Anchored match of STEAMID_RE: the literal 7656119 followed by ten digits. -/
def steamidHere (l : List Nat) : Bool :=
  bytesStart (strToBytes "7656119") l &&
    ((l.drop 7).take 10).length == 10 && ((l.drop 7).take 10).all isDigitB

/-- STEAMID_RE search over the raw bytes (the pattern has no IGNORECASE and
contains no letters). -/
def hasSteamid (data : List Nat) : Bool := hasMatch steamidHere data

/-- A byte of the regex whitespace class (space, tab, LF, VT, FF, CR). -/
def isSpaceB (b : Nat) : Bool :=
  b == 32 || b == 9 || b == 10 || b == 11 || b == 12 || b == 13

/-- The hostname whitelist of URL_RE, in alternation order. -/
def urlHosts : List (List Nat) :=
  [strToBytes "steamcommunity", strToBytes "steampowered",
   strToBytes "store.steampowered", strToBytes "help.steampowered",
   strToBytes "shared.steamstatic", strToBytes "avatars.steamstatic",
   strToBytes "steamcdn", strToBytes "steamuserimages",
   strToBytes "ext2-par1.steamserver", strToBytes "steambroadcast",
   strToBytes "steamloopback"]

/-- Tail class of URL_RE: at least one byte that is neither whitespace nor a
double or single quote must follow the hostname. -/
def urlTailOk (l : List Nat) : Bool :=
  match l with
  | [] => false
  | b :: _ => !isSpaceB b && b != 34 && b != 39

/-- Anchored match of URL_RE on the lower-cased buffer: http:// or https://,
a whitelisted host, then at least one tail byte. -/
def urlHere (l : List Nat) : Bool :=
  if bytesStart (strToBytes "http://") l then
    urlHosts.any (fun h => bytesStart h (l.drop 7) && urlTailOk ((l.drop 7).drop h.length))
  else if bytesStart (strToBytes "https://") l then
    urlHosts.any (fun h => bytesStart h (l.drop 8) && urlTailOk ((l.drop 8).drop h.length))
  else false

/-- URL_RE search (IGNORECASE: the buffer is lower-cased first). -/
def hasURL (data : List Nat) : Bool := hasMatch urlHere (data.map lowerByte)

/-- Anchored match of the quoted alternative of MSG_LINE_RE:
"message" \s* : \s* " [^"]+ " (on the lower-cased buffer). -/
def msgQuoteHere (l : List Nat) : Bool :=
  if bytesStart (strToBytes "\"message\"") l then
    match (l.drop 9).dropWhile isSpaceB with
    | 58 :: r2 =>
      match r2.dropWhile isSpaceB with
      | 34 :: r4 =>
        let inner := r4.takeWhile (fun b => b != 34)
        !inner.isEmpty && (r4.drop inner.length).take 1 == [34]
      | _ => false
    | _ => false
  else false

/-- Anchored match of the tag alternative of MSG_LINE_RE: a_tag_ then at
least three digits (the trailing class matches the empty string). -/
def msgTagHere (l : List Nat) : Bool :=
  bytesStart (strToBytes "a_tag_") l && 3 ≤ ((l.drop 6).takeWhile isDigitB).length

/-- Anchored match of the phrase alternative of MSG_LINE_RE:
im \s+ going \s+ to \s+ use. -/
def msgPhraseHere (l : List Nat) : Bool :=
  bytesStart (strToBytes "im") l &&
    (let r := l.drop 2
     match r with
     | b :: _ =>
       isSpaceB b &&
         (let r2 := r.dropWhile isSpaceB
          bytesStart (strToBytes "going") r2 &&
            (let r3 := r2.drop 5
             match r3 with
             | c :: _ =>
               isSpaceB c &&
                 (let r4 := r3.dropWhile isSpaceB
                  bytesStart (strToBytes "to") r4 &&
                    (let r5 := r4.drop 2
                     match r5 with
                     | d :: _ =>
                       isSpaceB d && bytesStart (strToBytes "use") (r5.dropWhile isSpaceB)
                     | [] => false))
             | [] => false))
     | [] => false)

/-- Anchored match of MSG_LINE_RE: the three alternatives in order. -/
def msgHere (l : List Nat) : Bool := msgQuoteHere l || msgTagHere l || msgPhraseHere l

/-- MSG_LINE_RE search (IGNORECASE: the buffer is lower-cased first). -/
def hasMsg (data : List Nat) : Bool := hasMatch msgHere (data.map lowerByte)

/-- match_kind: the three detectors in fixed order URL, steamid, message;
first match wins, otherwise the transient kind string. -/
def match_kind (data : List Nat) : String :=
  if hasURL data then "url"
  else if hasSteamid data then "steamid"
  else if hasMsg data then "chat"
  else "string"

/-! ## FieldExtractor: int_unix_ms -/

/-- Anchored match of UNIX13_RE: thirteen digit bytes from here. -/
def digits13Here (l : List Nat) : Bool :=
  (l.take 13).length == 13 && (l.take 13).all isDigitB

/-- Decimal value of a digit-byte list. -/
def digitsToNat (l : List Nat) : Nat := l.foldl (fun a b => a * 10 + (b - 48)) 0

/-- int_unix_ms: search UNIX13_RE and parse the matched thirteen digits;
none when the buffer holds no thirteen consecutive digits. -/
def int_unix_ms (data : List Nat) : Option Nat :=
  match searchFrom digits13Here data with
  | some i => some (digitsToNat ((data.drop i).take 13))
  | none => none

/-! ## postprocess.py: string helpers

CPython str.strip / str.lower are modelled for ASCII data (the only data the
pipeline compares against); int(str) is modelled with CPython's whitespace
stripping, optional sign, and single-underscore-between-digits rule. -/

/-- A Python whitespace character (ASCII subset). -/
def isPySpaceC (c : Char) : Bool :=
  c == ' ' || c == '\t' || c == '\n' || c == '\r' || c.toNat == 11 || c.toNat == 12

/-- str.strip on a character list. -/
def pyStripL (l : List Char) : List Char :=
  ((l.dropWhile isPySpaceC).reverse.dropWhile isPySpaceC).reverse

/-- str.strip. -/
def pyStrip (s : String) : String := String.mk (pyStripL s.data)

/-- str.lower on one character (ASCII). -/
def pyLowerChar (c : Char) : Char :=
  if 65 ≤ c.toNat && c.toNat ≤ 90 then Char.ofNat (c.toNat + 32) else c

/-- str.lower. -/
def pyLower (s : String) : String := String.mk (s.data.map pyLowerChar)

/-- An ASCII digit character. -/
def isDigitC (c : Char) : Bool := 48 ≤ c.toNat && c.toNat ≤ 57

/-- Decimal value of a digit character. -/
def digitVal (c : Char) : Nat := c.toNat - 48

/-- Digits (with optional single underscores between digits) after a first
digit has been read, as in CPython's int(). -/
def parseUDigitsAfter (acc : Nat) : List Char → Option Nat
  | [] => some acc
  | '_' :: d :: rest =>
    if isDigitC d then parseUDigitsAfter (acc * 10 + digitVal d) rest else none
  | '_' :: [] => none
  | c :: rest =>
    if isDigitC c then parseUDigitsAfter (acc * 10 + digitVal c) rest else none

/-- A non-empty digit group (with underscore rule). -/
def parseUDigits : List Char → Option Nat
  | [] => none
  | c :: rest => if isDigitC c then parseUDigitsAfter (digitVal c) rest else none

/-- CPython int(str): strip whitespace, optional sign, digit group; none
models a raised ValueError. -/
def pyParseInt (s : String) : Option Int :=
  match pyStripL s.data with
  | '+' :: rest => (parseUDigits rest).map (fun n => (n : Int))
  | '-' :: rest => (parseUDigits rest).map (fun n => -(n : Int))
  | l => (parseUDigits l).map (fun n => (n : Int))

/-! ## postprocess.py: hex_off, ts_iso, domain_of -/

/-- An uppercase hexadecimal digit character, as produced by format spec X. -/
def hexDigitC (d : Nat) : Char :=
  if d < 10 then Char.ofNat (48 + d) else Char.ofNat (55 + d)

/-- Uppercase hex digits of n (most significant first); fuel-based div-16
recursion, n itself being sufficient fuel. -/
def natHexAux : Nat → Nat → List Char
  | 0, _ => []
  | _ + 1, 0 => []
  | fuel + 1, n + 1 => natHexAux fuel ((n + 1) / 16) ++ [hexDigitC ((n + 1) % 16)]

/-- f-string format spec X for a non-negative integer. -/
def natHex (n : Nat) : String := if n = 0 then "0" else String.mk (natHexAux n n)

/-- f-string format spec X for an Int (negative values render as a minus sign
before the digits of the absolute value, as in CPython). -/
def intHexPy (n : Int) : String :=
  if n < 0 then "-" ++ natHex n.natAbs else natHex n.natAbs

/-- v.startswith("0x"). -/
def startsWith0x (s : String) : Bool :=
  match s.data with
  | '0' :: 'x' :: _ => true
  | _ => false

/-- hex_off: keep an already 0x-prefixed string; otherwise format int(v) as
0x + uppercase hex; when int(v) raises, return v (v or "" equals v, the empty
string mapping to itself). -/
def hex_off (v : String) : String :=
  if startsWith0x v then v
  else
    match pyParseInt v with
    | some n => "0x" ++ intHexPy n
    | none => v

/-- An uppercase hexadecimal digit character (0-9 or A-F). -/
def isUpHexC (c : Char) : Bool := isDigitC c || (65 ≤ c.toNat && c.toNat ≤ 70)

/-- A canonical hex offset in the sense of the spec: 0x followed by one or
more uppercase hexadecimal digits and nothing else. -/
def isCanonHex (s : String) : Bool :=
  match s.data with
  | '0' :: 'x' :: ds => !ds.isEmpty && ds.all isUpHexC
  | _ => false

/-- ts_iso: parse unix_ts as an integer; empty for unparseable or non-positive
values, otherwise the UTC-formatted string.  The strftime/fromtimestamp
rendering is abstracted as the parameter fmt: no claim depends on the digits
it produces, only on which inputs reach it. -/
def ts_iso (fmt : Int → String) (ms : String) : String :=
  match pyParseInt ms with
  | none => ""
  | some v => if v ≤ 0 then "" else fmt v

/-- Anchored DOM_RE match (case-sensitive): http:// or https:// then the
greedy non-empty host group of non-slash characters. -/
def domainHost (l : List Char) : Option (List Char) :=
  if l.take 7 == "http://".data then
    match (l.drop 7).takeWhile (fun c => c != '/') with
    | [] => none
    | h => some h
  else if l.take 8 == "https://".data then
    match (l.drop 8).takeWhile (fun c => c != '/') with
    | [] => none
    | h => some h
  else none

/-- domain_of: empty for an empty url; otherwise the lower-cased host group
of DOM_RE matched at the start of the stripped url, empty when it does not
match. -/
def domain_of (url : String) : String :=
  if url = "" then ""
  else
    match domainHost (pyStripL url.data) with
    | some h => String.mk (h.map pyLowerChar)
    | none => ""

/-! ## postprocess.py: main's cleaning pipeline

A raw CSV record is modelled as a structure with the seven carver columns;
a cleaned record carries the nine output columns.  The main loop keeps kinds
url/steamid/chat, drops payload-less short-preview rows, normalizes
timestamp/offset/domain, and deduplicates on the string
kind + "|" + steamid + "|" + message + "|" + value, first occurrence kept. -/

structure RawRow where
  kind : String
  offset : String
  preview : String
  steamid : String
  unix_ts : String
  message : String
  value : String
deriving DecidableEq

structure CleanRow where
  kind : String
  timestamp : String
  unix_ts : String
  offset : String
  steamid : String
  message : String
  value : String
  preview : String
  domain : String
deriving DecidableEq

/-- The loop's kind variable: row kind stripped and lower-cased. -/
def kindNorm (r : RawRow) : String := pyLower (pyStrip r.kind)

/-- Membership in keep_kinds. -/
def keepKind (k : String) : Bool := k == "url" || k == "steamid" || k == "chat"

/-- The payload drop test: no message, no value, preview shorter than 8. -/
def dropPayload (r : RawRow) : Bool :=
  r.message == "" && r.value == "" && decide (r.preview.length < 8)

/-- The de-dup key string kind|steamid|message|value. -/
def dedupKey (k : String) (r : RawRow) : String :=
  k ++ "|" ++ r.steamid ++ "|" ++ r.message ++ "|" ++ r.value

/-- The normalized, enriched row appended to cleaned_rows (kind keeps the raw
field value; only timestamp, offset and domain are computed). -/
def mkClean (fmt : Int → String) (r : RawRow) (k : String) : CleanRow :=
  { kind := r.kind
    timestamp := ts_iso fmt r.unix_ts
    unix_ts := r.unix_ts
    offset := hex_off r.offset
    steamid := r.steamid
    message := r.message
    value := r.value
    preview := r.preview
    domain := if k == "url" then domain_of r.value else "" }

/-- The reader loop of main with its seen-set accumulator (a list of keys). -/
def cleanLoop (fmt : Int → String) : List RawRow → List String → List CleanRow
  | [], _ => []
  | r :: rest, seen =>
    let k := kindNorm r
    if keepKind k then
      if dropPayload r then cleanLoop fmt rest seen
      else
        let key := dedupKey k r
        if key ∈ seen then cleanLoop fmt rest seen
        else mkClean fmt r k :: cleanLoop fmt rest (key :: seen)
    else cleanLoop fmt rest seen

/-- cleaned_rows as accumulated by main before sorting. -/
def cleaned_rows (fmt : Int → String) (rows : List RawRow) : List CleanRow :=
  cleanLoop fmt rows []

/-- The normalized surviving rows with no deduplication (the same loop minus
the seen-set check): the stream the de-dup key filter runs over. -/
def survivorRows (fmt : Int → String) : List RawRow → List CleanRow
  | [] => []
  | r :: rest =>
    let k := kindNorm r
    if keepKind k then
      if dropPayload r then survivorRows fmt rest
      else mkClean fmt r k :: survivorRows fmt rest
    else survivorRows fmt rest

/-- The de-dup key of a cleaned row, recomputed from its (unchanged) key
fields. -/
def outKey (c : CleanRow) : String :=
  pyLower (pyStrip c.kind) ++ "|" ++ c.steamid ++ "|" ++ c.message ++ "|" ++ c.value

/-- First-occurrence filter on the de-dup key: the spec-side description of
deduplication over an already-normalized stream. -/
def dedupFirst : List CleanRow → List String → List CleanRow
  | [], _ => []
  | c :: rest, seen =>
    if outKey c ∈ seen then dedupFirst rest seen
    else c :: dedupFirst rest (outKey c :: seen)

/-! ## postprocess.py: the sort

sort_key returns the string triple (timestamp, kind, offset); Python sorts
tuples and strings lexicographically (strings by code point).  list.sort is
stable; it is embedded as the stable insertion sort that places each row
before the first strictly greater row of the sorted prefix. -/

/-- Three-way lexicographic comparison of character lists by code point,
CPython's string comparison. -/
def charsCmp : List Char → List Char → Ordering
  | [], [] => .eq
  | [], _ :: _ => .lt
  | _ :: _, [] => .gt
  | a :: as, b :: bs =>
    if a.toNat < b.toNat then .lt
    else if b.toNat < a.toNat then .gt
    else charsCmp as bs

/-- CPython string comparison. -/
def strCmp (a b : String) : Ordering := charsCmp a.data b.data

/-- CPython tuple comparison of the sort_key triples
(timestamp, kind, offset). -/
def rowCmp (a b : CleanRow) : Ordering :=
  match strCmp a.timestamp b.timestamp with
  | .eq =>
    match strCmp a.kind b.kind with
    | .eq => strCmp a.offset b.offset
    | o => o
  | o => o

/-- Strict key order (Python's tuple less-than on sort keys). -/
def rowLt (a b : CleanRow) : Bool := rowCmp a b == .lt

/-- Ascending order on cleaned rows (non-strict, by sort key). -/
def rowLe (a b : CleanRow) : Prop := rowCmp a b ≠ .gt

/-- Stable insertion: r goes before the first element strictly greater
than it. -/
def insertRow (r : CleanRow) : List CleanRow → List CleanRow
  | [] => [r]
  | x :: xs => if rowLt r x then r :: x :: xs else x :: insertRow r xs

/-- Stable sort of the cleaned rows (equal keys keep input order, as CPython's
list.sort does). -/
def sortRows (l : List CleanRow) : List CleanRow :=
  l.foldl (fun acc r => insertRow r acc) []

/-- The full cleaned dataset of main: filter, normalize, deduplicate, then
sort by (timestamp, kind, offset). -/
def main_clean (fmt : Int → String) (rows : List RawRow) : List CleanRow :=
  sortRows (cleaned_rows fmt rows)

/-- Example raw record: a url-kind row whose value holds a well-formed URL. -/
def exRowUrl : RawRow :=
  { kind := "url", offset := "1", preview := "", steamid := "", unix_ts := "",
    message := "", value := "https://SteamCommunity.com/id/x" }

/-- Example raw record: a url-kind row whose value is not a scheme://host
URL (it survives filtering through its non-empty message). -/
def exRowUrlNoHost : RawRow :=
  { kind := "url", offset := "1", preview := "", steamid := "", unix_ts := "",
    message := "m", value := "x" }

/-! # Theorems -/

/-! ## C2/C3: the chunk iterator -/

theorem chunkStep_eq {chunkSize overlap : Nat} (h : overlap < chunkSize) :
    chunkStep chunkSize overlap = chunkSize - overlap := by
  unfold chunkStep; omega

theorem chunksAux_mem_shape {C s stop : Nat} :
    ∀ fuel cursor, ∀ p ∈ chunksAux C s stop fuel cursor,
      cursor ≤ p.1 ∧ p.1 < stop ∧ p.2 = min C (stop - p.1) := by
  intro fuel
  induction fuel with
  | zero => intro cursor p hp; simp [chunksAux] at hp
  | succ n ih =>
    intro cursor p hp
    by_cases h : cursor < stop
    · simp only [chunksAux, if_pos h, List.mem_cons] at hp
      rcases hp with rfl | hp
      · exact ⟨Nat.le_refl _, h, rfl⟩
      · have := ih (cursor + s) p hp
        exact ⟨by omega, this.2.1, this.2.2⟩
    · simp [chunksAux, if_neg h] at hp

theorem chunksAux_cover {C s stop : Nat} (hs : 1 ≤ s) (hsC : s ≤ C) :
    ∀ fuel cursor, stop - cursor ≤ fuel → ∀ a, cursor ≤ a → a < stop →
      ∃ p ∈ chunksAux C s stop fuel cursor, p.1 ≤ a ∧ a < p.1 + p.2 := by
  intro fuel
  induction fuel with
  | zero => intro cursor hf a ha1 ha2; omega
  | succ n ih =>
    intro cursor hf a ha1 ha2
    have hcs : cursor < stop := by omega
    by_cases hhead : a < cursor + min C (stop - cursor)
    · refine ⟨(cursor, min C (stop - cursor)), ?_, ha1, hhead⟩
      simp [chunksAux, if_pos hcs]
    · have hC : C ≤ stop - cursor := by omega
      have hstep : cursor + s ≤ a := by omega
      obtain ⟨p, hp, h1, h2⟩ := ih (cursor + s) (by omega) a hstep ha2
      exact ⟨p, by simp [chunksAux, if_pos hcs, List.mem_cons]; exact Or.inr hp, h1, h2⟩

theorem chunksAux_head? {C s stop : Nat} :
    ∀ fuel cursor, (chunksAux C s stop fuel cursor).head? =
      if 1 ≤ fuel ∧ cursor < stop then some (cursor, min C (stop - cursor)) else none := by
  intro fuel cursor
  cases fuel with
  | zero => simp [chunksAux]
  | succ n =>
    by_cases h : cursor < stop
    · simp [chunksAux, if_pos h, h]
    · simp [chunksAux, if_neg h, h]

theorem chunksAux_chain {C s stop : Nat} :
    ∀ fuel cursor, List.Chain'
      (fun p q : Nat × Nat => q.1 = p.1 + s ∧ p.2 = min C (stop - p.1) ∧
        q.2 = min C (stop - q.1))
      (chunksAux C s stop fuel cursor) := by
  intro fuel
  induction fuel with
  | zero => intro cursor; simp [chunksAux]
  | succ n ih =>
    intro cursor
    by_cases h : cursor < stop
    · simp only [chunksAux, if_pos h]
      rw [List.chain'_cons']
      refine ⟨?_, ih (cursor + s)⟩
      intro q hq
      rw [chunksAux_head?] at hq
      by_cases h2 : 1 ≤ n ∧ cursor + s < stop
      · simp only [if_pos h2, Option.mem_def, Option.some.injEq] at hq
        subst hq; exact ⟨rfl, rfl, rfl⟩
      · simp [if_neg h2] at hq
    · simp [chunksAux, if_neg h]

/-- Claim C2 (amended): for O < C, the chunk iterator over [start, stop)
starts at the range start, advances by step = C - O, gives every chunk length
min(C, stop - cursor) staying inside the range, and its chunks exactly cover
[start, stop); each pair of consecutive chunks shares exactly
(earlier length - step) bytes, which equals O exactly when the earlier chunk
has the full chunk size (when O > C/2, several trailing chunks may be
truncated, so pairs other than the last may share fewer than O bytes). -/
theorem chunk_iteration_c2 (C O start stop : Nat) (hO : O < C) :
    (∀ p ∈ layer_read_chunks C O start stop,
        start ≤ p.1 ∧ p.1 < stop ∧ p.2 = min C (stop - p.1) ∧ p.1 + p.2 ≤ stop) ∧
    (∀ a, start ≤ a → a < stop →
        ∃ p ∈ layer_read_chunks C O start stop, p.1 ≤ a ∧ a < p.1 + p.2) ∧
    (start < stop →
        (layer_read_chunks C O start stop).head? = some (start, min C (stop - start))) ∧
    List.Chain'
      (fun p q : Nat × Nat => q.1 = p.1 + (C - O) ∧ p.1 + p.2 - q.1 = p.2 - (C - O) ∧
        (C + p.1 ≤ stop → p.1 + p.2 - q.1 = O))
      (layer_read_chunks C O start stop) := by
  have hstep : chunkStep C O = C - O := chunkStep_eq hO
  refine ⟨?_, ?_, ?_, ?_⟩
  · intro p hp
    have h := chunksAux_mem_shape (stop - start) start p hp
    refine ⟨h.1, h.2.1, h.2.2, ?_⟩
    have := Nat.min_le_right C (stop - p.1)
    omega
  · intro a ha1 ha2
    exact chunksAux_cover (by omega) (by omega) (stop - start) start (by omega) a ha1 ha2
  · intro hlt
    rw [layer_read_chunks, chunksAux_head?, if_pos ⟨by omega, hlt⟩]
  · refine List.Chain'.imp ?_ (chunksAux_chain (stop - start) start)
    rintro p q ⟨h1, h2, _⟩
    rw [hstep] at h1
    refine ⟨h1, by omega, ?_⟩
    intro hfull
    have : min C (stop - p.1) = C := by omega
    omega

/-- Claim C2 counterexample: with chunkSize 4, overlap 3 (0 ≤ O < C) over the
range [0, 3), the chunks are (0,3), (1,2), (2,1); the first consecutive pair
is not the last pair yet shares only 2 bytes, not O = 3, refuting the claim
that every pair but possibly the last overlaps by exactly O. -/
theorem chunk_overlap_counterexample :
    layer_read_chunks 4 3 0 3 = [(0, 3), (1, 2), (2, 1)] ∧
    pairOverlaps (layer_read_chunks 4 3 0 3) = [2, 1] ∧
    ((pairOverlaps (layer_read_chunks 4 3 0 3)).dropLast.all (fun x => x == 3)) = false := by
  decide

theorem chunk_iteration_c2_witness :
    1 < 4 ∧ (∃ p ∈ layer_read_chunks 4 1 0 10, p.1 ≤ 9 ∧ 9 < p.1 + p.2) :=
  ⟨by decide, (chunk_iteration_c2 4 1 0 10 (by decide)).2.1 9 (by decide) (by decide)⟩

theorem chunksAuxRead_eq_filterMap {β : Type} {C s stop : Nat}
    {readFn : Nat → Nat → Option β} :
    ∀ fuel cursor, chunksAuxRead C s stop readFn fuel cursor =
      (chunksAux C s stop fuel cursor).filterMap
        (fun p => (readFn p.1 p.2).map (fun d => (p.1, d))) := by
  intro fuel
  induction fuel with
  | zero => intro cursor; simp [chunksAuxRead, chunksAux]
  | succ n ih =>
    intro cursor
    by_cases h : cursor < stop
    · simp only [chunksAuxRead, chunksAux, if_pos h, List.filterMap_cons]
      cases hr : readFn cursor (min C (stop - cursor)) with
      | some d => simp [hr, ih]
      | none => simp [hr, ih]
    · simp [chunksAuxRead, chunksAux, if_neg h]

/-- Claim C3: a failed read (an InvalidAddressException, modelled as the read
function returning none) is absorbed inside the iterator: the yielded stream
over all mapped ranges equals the all-reads-succeed chunk stream with exactly
the failed cursors' chunks omitted — so no exception escapes, no chunk is
yielded for a failed cursor, and every cursor position of every range that the
all-success iteration visits is still visited. -/
theorem failed_read_skip_c3 {β : Type} (chunkSize overlap : Nat)
    (readFn : Nat → Nat → Option β) (ranges : List (Nat × Nat)) :
    rangesChunksRead chunkSize overlap readFn ranges =
      (rangesChunks chunkSize overlap ranges).filterMap
        (fun p => (readFn p.1 p.2).map (fun d => (p.1, d))) := by
  induction ranges with
  | nil => simp [rangesChunksRead, rangesChunks]
  | cons r rs ih =>
    obtain ⟨s, e⟩ := r
    simp only [rangesChunksRead, rangesChunks, List.filterMap_append, ih,
      layer_read_chunks_read, layer_read_chunks, chunksAuxRead_eq_filterMap]

/-! ## C5: match_kind priority -/

/-- Claim C5: match_kind tries the URL, identifier and message detectors in
that fixed order and returns the kind of the first that matches, the kind
string when none does; in particular a buffer where both the URL detector and
the identifier detector match classifies as url. -/
theorem match_kind_priority_c5 (data : List Nat) :
    (hasURL data = true → match_kind data = "url") ∧
    (hasURL data = false → hasSteamid data = true → match_kind data = "steamid") ∧
    (hasURL data = false → hasSteamid data = false → hasMsg data = true →
        match_kind data = "chat") ∧
    (hasURL data = false → hasSteamid data = false → hasMsg data = false →
        match_kind data = "string") ∧
    (hasURL data = true → hasSteamid data = true → match_kind data = "url") := by
  unfold match_kind
  refine ⟨?_, ?_, ?_, ?_, ?_⟩ <;> intros <;> simp_all

theorem match_kind_priority_c5_witness :
    hasURL (strToBytes "https://steamcommunity.com/id/x 76561198000000000") = true ∧
    hasSteamid (strToBytes "https://steamcommunity.com/id/x 76561198000000000") = true ∧
    match_kind (strToBytes "https://steamcommunity.com/id/x 76561198000000000") = "url" :=
  ⟨by decide, by decide,
    (match_kind_priority_c5
      (strToBytes "https://steamcommunity.com/id/x 76561198000000000")).1 (by decide)⟩

/-! ## C9: int_unix_ms -/

theorem searchFrom_eq_some {p : List Nat → Bool} :
    ∀ l i, searchFrom p l = some i ↔
      (p (l.drop i) = true ∧ ∀ j, j < i → p (l.drop j) = false) := by
  intro l
  induction l with
  | nil =>
    intro i
    by_cases h : p [] = true
    · simp only [searchFrom, if_pos h, List.drop_nil, Option.some.injEq]
      constructor
      · rintro rfl; exact ⟨h, by omega⟩
      · rintro ⟨_, hj⟩
        by_contra hne
        have := hj 0 (by omega)
        simp [h] at this
    · simp only [searchFrom, if_neg h, List.drop_nil]
      simp only [Bool.not_eq_true] at h
      constructor
      · intro hfalse; cases hfalse
      · rintro ⟨h1, _⟩; rw [h] at h1; cases h1
  | cons b t ih =>
    intro i
    by_cases h : p (b :: t) = true
    · simp only [searchFrom, if_pos h, Option.some.injEq]
      constructor
      · rintro rfl; exact ⟨h, by omega⟩
      · rintro ⟨_, hj⟩
        by_contra hne
        have := hj 0 (by omega)
        simp [h] at this
    · simp only [searchFrom, if_neg h, Option.map_eq_some']
      constructor
      · rintro ⟨i', hi', rfl⟩
        obtain ⟨h1, h2⟩ := (ih i').mp hi'
        refine ⟨by simpa using h1, ?_⟩
        intro j hj
        cases j with
        | zero => simpa using h
        | succ j' => simpa using h2 j' (by omega)
      · rintro ⟨h1, h2⟩
        cases i with
        | zero => simp only [List.drop_zero] at h1; exact absurd h1 h
        | succ i' =>
          refine ⟨i', (ih i').mpr ⟨by simpa using h1, ?_⟩, rfl⟩
          intro j hj
          simpa using h2 (j + 1) (by omega)

theorem searchFrom_eq_none {p : List Nat → Bool} :
    ∀ l, searchFrom p l = none ↔ ∀ i, p (l.drop i) = false := by
  intro l
  induction l with
  | nil =>
    by_cases h : p [] = true
    · simp only [searchFrom, if_pos h, List.drop_nil]
      constructor
      · intro hfalse; cases hfalse
      · intro hall; rw [hall 0] at h; cases h
    · simp only [searchFrom, if_neg h, List.drop_nil]
      simp only [Bool.not_eq_true] at h
      exact ⟨fun _ _ => h, fun _ => trivial⟩
  | cons b t ih =>
    by_cases h : p (b :: t) = true
    · simp only [searchFrom, if_pos h]
      constructor
      · intro hfalse; cases hfalse
      · intro hall
        have := hall 0
        simp [h] at this
    · simp only [searchFrom, if_neg h, Option.map_eq_none']
      rw [ih]
      constructor
      · intro hall i
        cases i with
        | zero => simpa using h
        | succ i' => simpa using hall i'
      · intro hall i
        simpa using hall (i + 1)

/-- Claim C9 (amended): int_unix_ms finds the earliest position at which
thirteen consecutive digit bytes start, returns their decimal value, and
returns none exactly when no thirteen consecutive digits occur anywhere — in
particular a maximal digit run longer than 13 still yields a timestamp (its
first 13 digits), the regex having no boundary guards. -/
theorem unix13_window_c9 (data : List Nat) (v : Nat) :
    (int_unix_ms data = some v ↔
      ∃ i, digits13Here (data.drop i) = true ∧
        (∀ j, j < i → digits13Here (data.drop j) = false) ∧
        v = digitsToNat ((data.drop i).take 13)) ∧
    (int_unix_ms data = none ↔ ∀ i, digits13Here (data.drop i) = false) := by
  constructor
  · unfold int_unix_ms
    cases hs : searchFrom digits13Here data with
    | some i0 =>
      obtain ⟨h1, h2⟩ := (searchFrom_eq_some data i0).mp hs
      simp only [Option.some.injEq]
      constructor
      · rintro rfl
        exact ⟨i0, h1, h2, rfl⟩
      · rintro ⟨i, hi1, hi2, rfl⟩
        have : i = i0 := by
          by_contra hne
          rcases Nat.lt_or_ge i i0 with hlt | hge
          · rw [h2 i hlt] at hi1; cases hi1
          · have : i0 < i := by omega
            rw [hi2 i0 this] at h1; cases h1
        rw [this]
    | none =>
      have hall := (searchFrom_eq_none data).mp hs
      constructor
      · intro hfalse; cases hfalse
      · rintro ⟨i, hi1, _, _⟩
        rw [hall i] at hi1; cases hi1
  · unfold int_unix_ms
    cases hs : searchFrom digits13Here data with
    | some i0 =>
      obtain ⟨h1, _⟩ := (searchFrom_eq_some data i0).mp hs
      constructor
      · intro hfalse; cases hfalse
      · intro hall; rw [hall i0] at h1; cases h1
    | none => simpa using (searchFrom_eq_none data).mp hs

/-- Claim C9 counterexample: a buffer that is one maximal run of 14 digits —
so it contains no run of exactly 13 digits — still yields a timestamp, namely
the value of its first 13 digits, where the claim demands 0/none. -/
theorem unix13_counterexample :
    (strToBytes "12345678901234").length = 14 ∧
    (strToBytes "12345678901234").all isDigitB = true ∧
    int_unix_ms (strToBytes "12345678901234") = some 1234567890123 := by
  decide

/-! ## C4: iter_strings — list helpers -/

theorem getD_drop_eq (l : List Nat) (n i : Nat) :
    (l.drop n).getD i 0 = l.getD (n + i) 0 := by
  simp [List.getD_eq_getElem?_getD, List.getElem?_drop]

theorem drop_length_takeWhile (p : Nat → Bool) :
    ∀ l : List Nat, l.drop (l.takeWhile p).length = l.dropWhile p := by
  intro l
  induction l with
  | nil => rfl
  | cons b t ih =>
    by_cases h : p b
    · simp only [List.takeWhile_cons_of_pos h, List.dropWhile_cons_of_pos h,
        List.length_cons, List.drop_succ_cons]
      exact ih
    · simp [List.takeWhile_cons_of_neg h, List.dropWhile_cons_of_neg h]

theorem dropWhile_takeWhile_nil (p : Nat → Bool) (l : List Nat) :
    (l.dropWhile p).takeWhile p = [] := by
  cases h : l.dropWhile p with
  | nil => rfl
  | cons c t =>
    have hc := List.head?_dropWhile_not p l
    rw [h] at hc
    simp only [List.head?_cons] at hc
    exact List.takeWhile_cons_of_neg (by simp [hc])

theorem getD_takeWhile_printable (p : Nat → Bool) (l : List Nat) (i : Nat)
    (h : i < (l.takeWhile p).length) : p (l.getD i 0) = true := by
  have heq : l.getD i 0 = (l.takeWhile p).getD i 0 := by
    rw [List.getD_eq_getElem?_getD, List.getD_eq_getElem?_getD]
    congr 1
    conv_lhs => rw [← List.takeWhile_append_dropWhile (p := p) (l := l)]
    exact List.getElem?_append_left h
  rw [heq, List.getD_eq_getElem?_getD, List.getElem?_eq_getElem h]
  simp only [Option.getD_some]
  exact List.mem_takeWhile_imp (List.getElem_mem h)

theorem scanAsciiAux_succ_cons (m n pos b : Nat) (rest : List Nat) :
    scanAsciiAux m (n + 1) pos (b :: rest) =
      if printableB b then
        (if m ≤ (b :: rest.takeWhile printableB).length then
          (pos, b :: rest.takeWhile printableB) ::
            scanAsciiAux m n (pos + (b :: rest.takeWhile printableB).length)
              (rest.dropWhile printableB)
        else
          scanAsciiAux m n (pos + (b :: rest.takeWhile printableB).length)
            (rest.dropWhile printableB))
      else scanAsciiAux m n (pos + 1) rest := rfl

theorem scanAsciiAux_mem_le {m : Nat} :
    ∀ fuel pos l q, q ∈ scanAsciiAux m fuel pos l → pos ≤ q.1 := by
  intro fuel
  induction fuel with
  | zero => intro pos l q hq; simp [scanAsciiAux] at hq
  | succ n ih =>
    intro pos l q hq
    match l with
    | [] => simp [scanAsciiAux] at hq
    | b :: rest =>
      rw [scanAsciiAux_succ_cons] at hq
      by_cases hb : printableB b
      · rw [if_pos hb] at hq
        by_cases hm : m ≤ (b :: rest.takeWhile printableB).length
        · rw [if_pos hm, List.mem_cons] at hq
          rcases hq with rfl | hq
          · exact Nat.le_refl _
          · have := ih _ _ q hq; omega
        · rw [if_neg hm] at hq
          have := ih _ _ q hq; omega
      · rw [if_neg hb] at hq
        have := ih _ _ q hq; omega

/-! ## C4: spec-side transfer lemmas for ASCII candidates -/

theorem asciiRunAt_shift {m : Nat} (l : List Nat) (d i : Nat) (run : List Nat) (hi : 1 ≤ i) :
    asciiRunAt m l (d + i) run ↔ asciiRunAt m (l.drop d) i run := by
  unfold asciiRunAt
  rw [List.drop_drop, getD_drop_eq]
  have e1 : d + i - 1 = d + (i - 1) := by omega
  rw [e1]
  constructor
  · rintro ⟨h1, h2, h3, h4⟩
    refine ⟨h1, h2, h3, Or.inr ?_⟩
    rcases h4 with h | h
    · omega
    · exact h
  · rintro ⟨h1, h2, h3, h4⟩
    refine ⟨h1, h2, h3, Or.inr ?_⟩
    rcases h4 with h | h
    · omega
    · exact h

theorem asciiRunAt_one_nonprintable {m b : Nat} {rest run : List Nat}
    (hb : printableB b = false) :
    asciiRunAt m (b :: rest) 1 run ↔ asciiRunAt m rest 0 run := by
  unfold asciiRunAt
  constructor
  · rintro ⟨h1, h2, h3, _⟩
    refine ⟨by simpa using h1, h2, h3, Or.inl rfl⟩
  · rintro ⟨h1, h2, h3, _⟩
    refine ⟨by simpa using h1, h2, h3, Or.inr (by simpa using hb)⟩

theorem asciiRunAt_zero_nonprintable {m b : Nat} {rest run : List Nat}
    (hb : printableB b = false) : ¬ asciiRunAt m (b :: rest) 0 run := by
  rintro ⟨h1, _, h3, _⟩
  rw [List.drop_zero, List.takeWhile_cons_of_neg (by simp [hb])] at h1
  exact h3 h1

theorem asciiRunAt_inside {m : Nat} (l : List Nat) (j : Nat) (run : List Nat) (hj : 1 ≤ j)
    (hpr : ∀ i, i < j → printableB (l.getD i 0) = true) : ¬ asciiRunAt m l j run := by
  rintro ⟨_, _, _, h4⟩
  rcases h4 with h | h
  · omega
  · rw [hpr (j - 1) (by omega)] at h; cases h

theorem asciiRunAt_zero_of_takeWhile_nil {m : Nat} {l run : List Nat}
    (h : l.takeWhile printableB = []) : ¬ asciiRunAt m l 0 run := by
  rintro ⟨h1, _, h3, _⟩
  rw [List.drop_zero, h] at h1
  exact h3 h1

theorem asciiRunAt_zero_printable {m b : Nat} {rest run : List Nat}
    (hb : printableB b = true) :
    asciiRunAt m (b :: rest) 0 run ↔
      (run = b :: rest.takeWhile printableB ∧ m ≤ run.length) := by
  unfold asciiRunAt
  rw [List.drop_zero, List.takeWhile_cons_of_pos hb]
  constructor
  · rintro ⟨h1, h2, _, _⟩; exact ⟨h1, h2⟩
  · rintro ⟨h1, h2⟩
    refine ⟨h1, h2, ?_, Or.inl rfl⟩
    rw [h1]; simp

/-- Membership characterization of the ASCII scan: a pair is yielded at
relative offset pos + j exactly when it is the maximal printable run of
length at least minlen starting at j, not extendable to the left. -/
theorem scanAscii_mem_iff {m : Nat} :
    ∀ fuel l pos j run, l.length ≤ fuel →
      ((pos + j, run) ∈ scanAsciiAux m fuel pos l ↔ asciiRunAt m l j run) := by
  intro fuel
  induction fuel with
  | zero =>
    intro l pos j run hlen
    have hl : l = [] := List.length_eq_zero.mp (by omega)
    subst hl
    simp only [scanAsciiAux, List.not_mem_nil, false_iff]
    rintro ⟨h1, _, h3, _⟩
    simp only [List.drop_nil, List.takeWhile_nil] at h1
    exact h3 h1
  | succ n ih =>
    intro l pos j run hlen
    match l with
    | [] =>
      simp only [scanAsciiAux, List.not_mem_nil, false_iff]
      rintro ⟨h1, _, h3, _⟩
      simp only [List.drop_nil, List.takeWhile_nil] at h1
      exact h3 h1
    | b :: rest =>
      rw [scanAsciiAux_succ_cons]
      have hlenr : rest.length ≤ n := by
        simp only [List.length_cons] at hlen; omega
      by_cases hb : printableB b
      · rw [if_pos hb]
        have htw : (b :: rest).takeWhile printableB = b :: rest.takeWhile printableB :=
          List.takeWhile_cons_of_pos hb
        have hdw : (b :: rest).dropWhile printableB = rest.dropWhile printableB :=
          List.dropWhile_cons_of_pos hb
        have hlen0 : 1 ≤ (b :: rest.takeWhile printableB).length := by simp
        have hlenr2 : (rest.dropWhile printableB).length ≤ n := by
          have hsp := congrArg List.length
            (List.takeWhile_append_dropWhile (p := printableB) (l := rest))
          simp only [List.length_append] at hsp
          omega
        have hdropl : (b :: rest).drop (b :: rest.takeWhile printableB).length =
            rest.dropWhile printableB := by
          have h0 := drop_length_takeWhile printableB (b :: rest)
          rw [htw, hdw] at h0
          exact h0
        have hprefix : ∀ i, i < (b :: rest.takeWhile printableB).length →
            printableB ((b :: rest).getD i 0) = true := by
          intro i hi
          exact getD_takeWhile_printable printableB (b :: rest) i (by rw [htw]; exact hi)
        have htwr2 : (rest.dropWhile printableB).takeWhile printableB = [] :=
          dropWhile_takeWhile_nil printableB rest
        by_cases hm : m ≤ (b :: rest.takeWhile printableB).length
        · rw [if_pos hm]
          constructor
          · intro hmem
            rw [List.mem_cons] at hmem
            rcases hmem with heq | hmem
            · have hj0 : j = 0 := by
                have := congrArg Prod.fst heq
                simp only at this; omega
              have hrun : run = b :: rest.takeWhile printableB := by
                have := congrArg Prod.snd heq
                simpa using this
              subst hj0
              exact (asciiRunAt_zero_printable hb).mpr ⟨hrun, by rw [hrun]; exact hm⟩
            · have hge := scanAsciiAux_mem_le n _ _ _ hmem
              simp only at hge
              have hj' : (b :: rest.takeWhile printableB).length ≤ j := by omega
              rw [show pos + j =
                (pos + (b :: rest.takeWhile printableB).length) +
                  (j - (b :: rest.takeWhile printableB).length) by omega] at hmem
              have hRA := (ih _ _ _ run hlenr2).mp hmem
              by_cases hj0 : j = (b :: rest.takeWhile printableB).length
              · exfalso
                rw [hj0, Nat.sub_self] at hRA
                exact asciiRunAt_zero_of_takeWhile_nil htwr2 hRA
              · have hj1 : 1 ≤ j - (b :: rest.takeWhile printableB).length := by omega
                have hshift :=
                  asciiRunAt_shift (m := m) (b :: rest)
                    (b :: rest.takeWhile printableB).length
                    (j - (b :: rest.takeWhile printableB).length) run hj1
                rw [hdropl, show (b :: rest.takeWhile printableB).length +
                  (j - (b :: rest.takeWhile printableB).length) = j by omega] at hshift
                exact hshift.mpr hRA
          · intro hRA
            by_cases hj0 : j = 0
            · subst hj0
              obtain ⟨hrun, _⟩ := (asciiRunAt_zero_printable hb).mp hRA
              exact List.mem_cons.mpr (Or.inl (by simp [hrun]))
            · by_cases hjin : j ≤ (b :: rest.takeWhile printableB).length
              · exact absurd hRA
                  (asciiRunAt_inside (b :: rest) j run (by omega)
                    (fun i hi => hprefix i (by omega)))
              · have hj1 : 1 ≤ j - (b :: rest.takeWhile printableB).length := by omega
                have hshift :=
                  asciiRunAt_shift (m := m) (b :: rest)
                    (b :: rest.takeWhile printableB).length
                    (j - (b :: rest.takeWhile printableB).length) run hj1
                rw [hdropl, show (b :: rest.takeWhile printableB).length +
                  (j - (b :: rest.takeWhile printableB).length) = j by omega] at hshift
                have hmem := (ih (rest.dropWhile printableB)
                  (pos + (b :: rest.takeWhile printableB).length)
                  (j - (b :: rest.takeWhile printableB).length) run hlenr2).mpr
                  (hshift.mp hRA)
                apply List.mem_cons.mpr
                right
                rw [show (pos + (b :: rest.takeWhile printableB).length) +
                  (j - (b :: rest.takeWhile printableB).length) = pos + j by omega] at hmem
                exact hmem
        · rw [if_neg hm]
          constructor
          · intro hmem
            have hge := scanAsciiAux_mem_le n _ _ _ hmem
            simp only at hge
            have hj' : (b :: rest.takeWhile printableB).length ≤ j := by omega
            rw [show pos + j =
              (pos + (b :: rest.takeWhile printableB).length) +
                (j - (b :: rest.takeWhile printableB).length) by omega] at hmem
            have hRA := (ih _ _ _ run hlenr2).mp hmem
            by_cases hj0 : j = (b :: rest.takeWhile printableB).length
            · exfalso
              rw [hj0, Nat.sub_self] at hRA
              exact asciiRunAt_zero_of_takeWhile_nil htwr2 hRA
            · have hj1 : 1 ≤ j - (b :: rest.takeWhile printableB).length := by omega
              have hshift :=
                asciiRunAt_shift (m := m) (b :: rest)
                  (b :: rest.takeWhile printableB).length
                  (j - (b :: rest.takeWhile printableB).length) run hj1
              rw [hdropl, show (b :: rest.takeWhile printableB).length +
                (j - (b :: rest.takeWhile printableB).length) = j by omega] at hshift
              exact hshift.mpr hRA
          · intro hRA
            by_cases hj0 : j = 0
            · exfalso
              subst hj0
              obtain ⟨hrun, hm2⟩ := (asciiRunAt_zero_printable hb).mp hRA
              rw [hrun] at hm2
              exact hm hm2
            · by_cases hjin : j ≤ (b :: rest.takeWhile printableB).length
              · exact absurd hRA
                  (asciiRunAt_inside (b :: rest) j run (by omega)
                    (fun i hi => hprefix i (by omega)))
              · have hj1 : 1 ≤ j - (b :: rest.takeWhile printableB).length := by omega
                have hshift :=
                  asciiRunAt_shift (m := m) (b :: rest)
                    (b :: rest.takeWhile printableB).length
                    (j - (b :: rest.takeWhile printableB).length) run hj1
                rw [hdropl, show (b :: rest.takeWhile printableB).length +
                  (j - (b :: rest.takeWhile printableB).length) = j by omega] at hshift
                have hmem := (ih (rest.dropWhile printableB)
                  (pos + (b :: rest.takeWhile printableB).length)
                  (j - (b :: rest.takeWhile printableB).length) run hlenr2).mpr
                  (hshift.mp hRA)
                rw [show (pos + (b :: rest.takeWhile printableB).length) +
                  (j - (b :: rest.takeWhile printableB).length) = pos + j by omega] at hmem
                exact hmem
      · rw [if_neg hb]
        have hbf : printableB b = false := by simpa using hb
        constructor
        · intro hmem
          have hge := scanAsciiAux_mem_le n _ _ _ hmem
          simp only at hge
          have hj' : 1 ≤ j := by omega
          rw [show pos + j = (pos + 1) + (j - 1) by omega] at hmem
          have hRA := (ih rest (pos + 1) (j - 1) run hlenr).mp hmem
          by_cases hj1 : j = 1
          · rw [hj1]
            rw [hj1, Nat.sub_self] at hRA
            exact (asciiRunAt_one_nonprintable hbf).mpr hRA
          · have hshift := asciiRunAt_shift (m := m) (b :: rest) 1 (j - 1) run (by omega)
            rw [show (b :: rest).drop 1 = rest by simp,
              show 1 + (j - 1) = j by omega] at hshift
            exact hshift.mpr hRA
        · intro hRA
          by_cases hj0 : j = 0
          · exfalso
            subst hj0
            exact asciiRunAt_zero_nonprintable hbf hRA
          · by_cases hj1 : j = 1
            · subst hj1
              have hRA0 := (asciiRunAt_one_nonprintable hbf).mp hRA
              exact (ih rest (pos + 1) 0 run hlenr).mpr hRA0
            · have hshift := asciiRunAt_shift (m := m) (b :: rest) 1 (j - 1) run (by omega)
              rw [show (b :: rest).drop 1 = rest by simp,
                show 1 + (j - 1) = j by omega] at hshift
              have hmem := (ih rest (pos + 1) (j - 1) run hlenr).mpr (hshift.mp hRA)
              rw [show (pos + 1) + (j - 1) = pos + j by omega] at hmem
              exact hmem

/-! ## C4: u16Chain facts -/

theorem u16Chain_cons_cons (b1 b2 : Nat) (t : List Nat) :
    u16Chain (b1 :: b2 :: t) = if printableB b1 && b2 == 0 then u16Chain t + 1 else 0 := rfl

theorem u16Chain_pos_inv {l : List Nat} (h : 1 ≤ u16Chain l) :
    ∃ b1 t, l = b1 :: 0 :: t ∧ printableB b1 = true ∧ u16Chain l = u16Chain t + 1 := by
  match l with
  | [] => simp [u16Chain] at h
  | [b] => simp [u16Chain] at h
  | b1 :: b2 :: t =>
    by_cases hp : printableB b1 && b2 == 0
    · have hb1 : printableB b1 = true := by
        have := hp; simp only [Bool.and_eq_true, beq_iff_eq] at this; exact this.1
      have hb2 : b2 = 0 := by
        have := hp; simp only [Bool.and_eq_true, beq_iff_eq] at this; exact this.2
      subst hb2
      exact ⟨b1, t, rfl, hb1, by rw [u16Chain_cons_cons, if_pos hp]⟩
    · rw [u16Chain_cons_cons, if_neg hp] at h; omega

theorem u16Chain_pair :
    ∀ (i : Nat) (l : List Nat), i < u16Chain l →
      printableB (l.getD (2 * i) 0) = true ∧ l.getD (2 * i + 1) 0 = 0 := by
  intro i
  induction i with
  | zero =>
    intro l h
    obtain ⟨b1, t, rfl, hb1, _⟩ := u16Chain_pos_inv (l := l) (by omega)
    simpa using hb1
  | succ i ih =>
    intro l h
    obtain ⟨b1, t, rfl, hb1, hchain⟩ := u16Chain_pos_inv (l := l) (by omega)
    have ht : i < u16Chain t := by omega
    have hrec := ih t ht
    have e1 : 2 * (i + 1) = (2 * i) + 1 + 1 := by omega
    rw [e1]
    simpa using hrec

theorem u16Chain_drop :
    ∀ (i : Nat) (l : List Nat), i ≤ u16Chain l →
      u16Chain (l.drop (2 * i)) = u16Chain l - i := by
  intro i
  induction i with
  | zero => intro l _; simp
  | succ i ih =>
    intro l h
    obtain ⟨b1, t, rfl, _, hchain⟩ := u16Chain_pos_inv (l := l) (by omega)
    have hd : (b1 :: 0 :: t).drop (2 * (i + 1)) = t.drop (2 * i) := by
      rw [show 2 * (i + 1) = (2 * i) + 1 + 1 by omega]
      simp
    rw [hd, ih t (by omega), hchain]
    omega

theorem u16Chain_drop_self (l : List Nat) :
    u16Chain (l.drop (2 * u16Chain l)) = 0 := by
  rw [u16Chain_drop (u16Chain l) l (Nat.le_refl _)]
  omega

theorem u16Chain_zero_of_head {l : List Nat} (h : printableB (l.getD 0 0) = false) :
    u16Chain l = 0 := by
  match l with
  | [] => rfl
  | [b] => rfl
  | b1 :: b2 :: t =>
    rw [u16Chain_cons_cons]
    have hb : printableB b1 = false := by simpa using h
    simp [hb]

theorem u16Chain_le : ∀ l : List Nat, 2 * u16Chain l ≤ l.length
  | [] => by simp [u16Chain]
  | [_] => by simp [u16Chain]
  | b1 :: b2 :: t => by
    rw [u16Chain_cons_cons]
    by_cases hp : printableB b1 && b2 == 0
    · rw [if_pos hp]
      have := u16Chain_le t
      simp only [List.length_cons]
      omega
    · rw [if_neg hp]; simp

/-! ## C4: the UTF-16LE scan -/

theorem scanU16Aux_succ_cons (m n pos b : Nat) (rest : List Nat) :
    scanU16Aux m (n + 1) pos (b :: rest) =
      if m ≤ u16Chain (b :: rest) ∧ 1 ≤ u16Chain (b :: rest) then
        (pos, (b :: rest).take (2 * u16Chain (b :: rest))) ::
          scanU16Aux m n (pos + 2 * u16Chain (b :: rest))
            ((b :: rest).drop (2 * u16Chain (b :: rest)))
      else scanU16Aux m n (pos + 1) rest := rfl

theorem scanU16Aux_mem_le {m : Nat} :
    ∀ fuel pos l q, q ∈ scanU16Aux m fuel pos l → pos ≤ q.1 := by
  intro fuel
  induction fuel with
  | zero => intro pos l q hq; simp [scanU16Aux] at hq
  | succ n ih =>
    intro pos l q hq
    match l with
    | [] => simp [scanU16Aux] at hq
    | b :: rest =>
      rw [scanU16Aux_succ_cons] at hq
      by_cases hg : m ≤ u16Chain (b :: rest) ∧ 1 ≤ u16Chain (b :: rest)
      · rw [if_pos hg, List.mem_cons] at hq
        rcases hq with rfl | hq
        · exact Nat.le_refl _
        · have := ih _ _ q hq; omega
      · rw [if_neg hg] at hq
        have := ih _ _ q hq; omega

theorem u16RunAt_shift {m : Nat} (l : List Nat) (d i : Nat) (run : List Nat) (hi : 2 ≤ i) :
    u16RunAt m l (d + i) run ↔ u16RunAt m (l.drop d) i run := by
  unfold u16RunAt
  rw [List.drop_drop, getD_drop_eq, getD_drop_eq]
  have e1 : d + (i - 2) = d + i - 2 := by omega
  have e2 : d + (i - 1) = d + i - 1 := by omega
  rw [e1, e2]
  constructor <;> rintro ⟨h1, h2, h3, h4⟩ <;> refine ⟨h1, h2, h3, ?_⟩
  · rintro ⟨_, hb2, hc2⟩; exact h4 ⟨by omega, hb2, hc2⟩
  · rintro ⟨_, hb2, hc2⟩; exact h4 ⟨by omega, hb2, hc2⟩

theorem u16RunAt_boundary_free {m : Nat} (l l2 : List Nat) (off i : Nat) (run : List Nat)
    (hdrop : l.drop off = l2.drop i)
    (hbl : ¬(2 ≤ off ∧ printableB (l.getD (off - 2) 0) = true ∧ l.getD (off - 1) 0 = 0))
    (hbr : ¬(2 ≤ i ∧ printableB (l2.getD (i - 2) 0) = true ∧ l2.getD (i - 1) 0 = 0)) :
    u16RunAt m l off run ↔ u16RunAt m l2 i run := by
  unfold u16RunAt
  rw [hdrop]
  constructor <;> rintro ⟨h1, h2, h3, _⟩
  · exact ⟨h1, h2, h3, hbr⟩
  · exact ⟨h1, h2, h3, hbl⟩

theorem u16RunAt_not_of_chain_zero {m : Nat} {l : List Nat} {off : Nat} {run : List Nat}
    (h : u16Chain (l.drop off) = 0) : ¬ u16RunAt m l off run := by
  rintro ⟨_, h2, _, _⟩
  omega

theorem u16RunAt_not_of_pair_before {m : Nat} {l : List Nat} {off : Nat} {run : List Nat}
    (h2 : 2 ≤ off) (hp : printableB (l.getD (off - 2) 0) = true)
    (h0 : l.getD (off - 1) 0 = 0) : ¬ u16RunAt m l off run := by
  rintro ⟨_, _, _, h4⟩
  exact h4 ⟨h2, hp, h0⟩

theorem u16RunAt_zero {m : Nat} {l run : List Nat} :
    u16RunAt m l 0 run ↔
      (m ≤ u16Chain l ∧ 1 ≤ u16Chain l ∧ run = l.take (2 * u16Chain l)) := by
  unfold u16RunAt
  simp only [List.drop_zero]
  constructor
  · rintro ⟨h1, h2, h3, _⟩; exact ⟨h1, h2, h3⟩
  · rintro ⟨h1, h2, h3⟩; exact ⟨h1, h2, h3, by omega⟩

theorem u16RunAt_chain_le {m : Nat} {l : List Nat} {off : Nat} {run : List Nat}
    (h : u16RunAt m l off run) : m ≤ u16Chain (l.drop off) := by
  unfold u16RunAt at h
  exact h.1

/-- Membership characterization of the UTF-16LE scan: a pair is yielded at
relative offset pos + j exactly when the maximal pair chain at j has length
k with minlen ≤ k, 1 ≤ k, the run is its 2k bytes, and no printable/NUL pair
immediately precedes j. -/
theorem scanU16_mem_iff {m : Nat} :
    ∀ fuel l pos j run, l.length ≤ fuel →
      ((pos + j, run) ∈ scanU16Aux m fuel pos l ↔ u16RunAt m l j run) := by
  intro fuel
  induction fuel with
  | zero =>
    intro l pos j run hlen
    have hl : l = [] := List.length_eq_zero.mp (by omega)
    subst hl
    simp only [scanU16Aux, List.not_mem_nil, false_iff]
    apply u16RunAt_not_of_chain_zero
    rw [List.drop_nil]; rfl
  | succ n ih =>
    intro l pos j run hlen
    match l with
    | [] =>
      simp only [scanU16Aux, List.not_mem_nil, false_iff]
      apply u16RunAt_not_of_chain_zero
      rw [List.drop_nil]; rfl
    | b :: rest =>
      rw [scanU16Aux_succ_cons]
      have hlenr : rest.length ≤ n := by simp only [List.length_cons] at hlen; omega
      by_cases hg : m ≤ u16Chain (b :: rest) ∧ 1 ≤ u16Chain (b :: rest)
      · rw [if_pos hg]
        have hk1 : 1 ≤ u16Chain (b :: rest) := hg.2
        have hkle : 2 * u16Chain (b :: rest) ≤ (b :: rest).length := u16Chain_le _
        have hlend : ((b :: rest).drop (2 * u16Chain (b :: rest))).length ≤ n := by
          simp only [List.length_drop, List.length_cons] at *
          omega
        constructor
        · intro hmem
          rw [List.mem_cons] at hmem
          rcases hmem with heq | hmem
          · have hj0 : j = 0 := by
              have := congrArg Prod.fst heq; simp only at this; omega
            have hrun : run = (b :: rest).take (2 * u16Chain (b :: rest)) := by
              have := congrArg Prod.snd heq; simpa using this
            subst hj0
            exact u16RunAt_zero.mpr ⟨hg.1, hg.2, hrun⟩
          · have hge := scanU16Aux_mem_le n _ _ _ hmem
            simp only at hge
            have hj' : 2 * u16Chain (b :: rest) ≤ j := by omega
            rw [show pos + j = (pos + 2 * u16Chain (b :: rest)) +
              (j - 2 * u16Chain (b :: rest)) by omega] at hmem
            have hRA := (ih _ _ _ run hlend).mp hmem
            by_cases hj0 : j = 2 * u16Chain (b :: rest)
            · exfalso
              rw [hj0, Nat.sub_self] at hRA
              have h2 := u16RunAt_chain_le hRA
              rw [List.drop_zero, u16Chain_drop_self] at h2
              obtain ⟨_, h1, _⟩ := u16RunAt_zero.mp hRA
              rw [u16Chain_drop_self] at h1
              omega
            · by_cases hj1 : j = 2 * u16Chain (b :: rest) + 1
              · rw [hj1]
                rw [show j - 2 * u16Chain (b :: rest) = 1 by omega] at hRA
                refine (u16RunAt_boundary_free (b :: rest)
                  ((b :: rest).drop (2 * u16Chain (b :: rest)))
                  (2 * u16Chain (b :: rest) + 1) 1 run ?_ ?_ ?_).mpr hRA
                · rw [List.drop_drop]
                · rintro ⟨_, hbp, _⟩
                  have hpair := u16Chain_pair (u16Chain (b :: rest) - 1) (b :: rest) (by omega)
                  rw [show 2 * u16Chain (b :: rest) + 1 - 2 =
                    2 * (u16Chain (b :: rest) - 1) + 1 by omega, hpair.2] at hbp
                  exact absurd hbp (by decide)
                · rintro ⟨hc, _⟩; omega
              · have hj2 : 2 ≤ j - 2 * u16Chain (b :: rest) := by omega
                have hshift := u16RunAt_shift (m := m) (b :: rest)
                  (2 * u16Chain (b :: rest)) (j - 2 * u16Chain (b :: rest)) run hj2
                rw [show 2 * u16Chain (b :: rest) +
                  (j - 2 * u16Chain (b :: rest)) = j by omega] at hshift
                exact hshift.mpr hRA
        · intro hRA
          by_cases hj0 : j = 0
          · subst hj0
            obtain ⟨_, _, hrun⟩ := u16RunAt_zero.mp hRA
            exact List.mem_cons.mpr (Or.inl (by simp [hrun]))
          · by_cases hjlt : j < 2 * u16Chain (b :: rest)
            · exfalso
              rcases Nat.even_or_odd j with ⟨a, ha⟩ | ⟨a, ha⟩
              · have ha1 : 1 ≤ a := by omega
                have hpair1 := u16Chain_pair (a - 1) (b :: rest) (by omega)
                exact u16RunAt_not_of_pair_before (by omega)
                  (by rw [show j - 2 = 2 * (a - 1) by omega]; exact hpair1.1)
                  (by rw [show j - 1 = 2 * (a - 1) + 1 by omega]; exact hpair1.2) hRA
              · have hpaira := u16Chain_pair a (b :: rest) (by omega)
                have hch : u16Chain ((b :: rest).drop j) = 0 := by
                  apply u16Chain_zero_of_head
                  rw [getD_drop_eq, show j + 0 = 2 * a + 1 by omega, hpaira.2]
                  rfl
                exact u16RunAt_not_of_chain_zero hch hRA
            · by_cases hj0' : j = 2 * u16Chain (b :: rest)
              · exfalso
                have hch : u16Chain ((b :: rest).drop j) = 0 := by
                  rw [hj0']; exact u16Chain_drop_self _
                exact u16RunAt_not_of_chain_zero hch hRA
              · by_cases hj1 : j = 2 * u16Chain (b :: rest) + 1
                · subst hj1
                  have hRA1 := (u16RunAt_boundary_free (b :: rest)
                    ((b :: rest).drop (2 * u16Chain (b :: rest)))
                    (2 * u16Chain (b :: rest) + 1) 1 run
                    (by rw [List.drop_drop])
                    (by
                      rintro ⟨_, hbp, _⟩
                      have hpair := u16Chain_pair (u16Chain (b :: rest) - 1)
                        (b :: rest) (by omega)
                      rw [show 2 * u16Chain (b :: rest) + 1 - 2 =
                        2 * (u16Chain (b :: rest) - 1) + 1 by omega, hpair.2] at hbp
                      exact absurd hbp (by decide))
                    (by rintro ⟨hc, _⟩; omega)).mp hRA
                  have hmem := (ih ((b :: rest).drop (2 * u16Chain (b :: rest)))
                    (pos + 2 * u16Chain (b :: rest)) 1 run hlend).mpr hRA1
                  exact List.mem_cons.mpr (Or.inr hmem)
                · have hj2 : 2 ≤ j - 2 * u16Chain (b :: rest) := by omega
                  have hshift := u16RunAt_shift (m := m) (b :: rest)
                    (2 * u16Chain (b :: rest)) (j - 2 * u16Chain (b :: rest)) run hj2
                  rw [show 2 * u16Chain (b :: rest) +
                    (j - 2 * u16Chain (b :: rest)) = j by omega] at hshift
                  have hmem := (ih ((b :: rest).drop (2 * u16Chain (b :: rest)))
                    (pos + 2 * u16Chain (b :: rest))
                    (j - 2 * u16Chain (b :: rest)) run hlend).mpr (hshift.mp hRA)
                  apply List.mem_cons.mpr
                  right
                  rw [show (pos + 2 * u16Chain (b :: rest)) +
                    (j - 2 * u16Chain (b :: rest)) = pos + j by omega] at hmem
                  exact hmem
      · rw [if_neg hg]
        constructor
        · intro hmem
          have hge := scanU16Aux_mem_le n _ _ _ hmem
          simp only at hge
          have hj' : 1 ≤ j := by omega
          rw [show pos + j = (pos + 1) + (j - 1) by omega] at hmem
          have hRA := (ih rest (pos + 1) (j - 1) run hlenr).mp hmem
          by_cases hj1 : j = 1
          · rw [hj1]
            rw [hj1, Nat.sub_self] at hRA
            exact (u16RunAt_boundary_free (b :: rest) rest 1 0 run rfl
              (by rintro ⟨hc, _⟩; omega) (by rintro ⟨hc, _⟩; omega)).mpr hRA
          · by_cases hj2 : j = 2
            · rw [hj2]
              rw [show j - 1 = 1 by omega] at hRA
              by_cases hpb : printableB b = true ∧ rest.getD 0 0 = 0
              · exfalso
                cases rest with
                | nil =>
                  have hch : u16Chain (([] : List Nat).drop 1) = 0 := rfl
                  exact u16RunAt_not_of_chain_zero hch hRA
                | cons r0 t =>
                  have hr0 : r0 = 0 := by simpa using hpb.2
                  subst hr0
                  have hk : u16Chain (b :: 0 :: t) = u16Chain t + 1 := by
                    rw [u16Chain_cons_cons, if_pos (by simp [hpb.1])]
                  have hm1 := u16RunAt_chain_le hRA
                  have hd : (0 :: t).drop 1 = t := rfl
                  rw [hd] at hm1
                  exact hg ⟨by omega, by omega⟩
              · refine (u16RunAt_boundary_free (b :: rest) rest 2 1 run rfl ?_
                  (by rintro ⟨hc, _⟩; omega)).mpr hRA
                rintro ⟨_, hbp, hb0⟩
                exact hpb ⟨by simpa using hbp, by simpa using hb0⟩
            · have hshift := u16RunAt_shift (m := m) (b :: rest) 1 (j - 1) run (by omega)
              rw [show (b :: rest).drop 1 = rest from rfl,
                show 1 + (j - 1) = j by omega] at hshift
              exact hshift.mpr hRA
        · intro hRA
          by_cases hj0 : j = 0
          · exfalso
            subst hj0
            obtain ⟨hm1, hm2, _⟩ := u16RunAt_zero.mp hRA
            exact hg ⟨hm1, hm2⟩
          · by_cases hj1 : j = 1
            · subst hj1
              have hRA0 := (u16RunAt_boundary_free (b :: rest) rest 1 0 run rfl
                (by rintro ⟨hc, _⟩; omega) (by rintro ⟨hc, _⟩; omega)).mp hRA
              exact (ih rest (pos + 1) 0 run hlenr).mpr hRA0
            · by_cases hj2 : j = 2
              · subst hj2
                by_cases hpb : printableB b = true ∧ rest.getD 0 0 = 0
                · exfalso
                  cases rest with
                  | nil =>
                    have hch : u16Chain ((b :: ([] : List Nat)).drop 2) = 0 := rfl
                    exact u16RunAt_not_of_chain_zero hch hRA
                  | cons r0 t =>
                    have hr0 : r0 = 0 := by simpa using hpb.2
                    subst hr0
                    have hk : u16Chain (b :: 0 :: t) = u16Chain t + 1 := by
                      rw [u16Chain_cons_cons, if_pos (by simp [hpb.1])]
                    have hm1 := u16RunAt_chain_le hRA
                    have hd : (b :: 0 :: t).drop 2 = t := rfl
                    rw [hd] at hm1
                    exact hg ⟨by omega, by omega⟩
                · have hRA1 := (u16RunAt_boundary_free (b :: rest) rest 2 1 run rfl
                    (by
                      rintro ⟨_, hbp, hb0⟩
                      exact hpb ⟨by simpa using hbp, by simpa using hb0⟩)
                    (by rintro ⟨hc, _⟩; omega)).mp hRA
                  exact (ih rest (pos + 1) 1 run hlenr).mpr hRA1
              · have hshift := u16RunAt_shift (m := m) (b :: rest) 1 (j - 1) run (by omega)
                rw [show (b :: rest).drop 1 = rest from rfl,
                  show 1 + (j - 1) = j by omega] at hshift
                have hmem := (ih rest (pos + 1) (j - 1) run hlenr).mpr (hshift.mp hRA)
                rw [show (pos + 1) + (j - 1) = pos + j by omega] at hmem
                exact hmem

theorem scanAsciiAux_sorted {m : Nat} :
    ∀ fuel pos l,
      List.Pairwise (fun p q : Nat × List Nat => p.1 < q.1) (scanAsciiAux m fuel pos l) := by
  intro fuel
  induction fuel with
  | zero => intro pos l; simp [scanAsciiAux]
  | succ n ih =>
    intro pos l
    match l with
    | [] => simp [scanAsciiAux]
    | b :: rest =>
      rw [scanAsciiAux_succ_cons]
      by_cases hb : printableB b
      · rw [if_pos hb]
        by_cases hm : m ≤ (b :: rest.takeWhile printableB).length
        · rw [if_pos hm]
          rw [List.pairwise_cons]
          refine ⟨?_, ih _ _⟩
          intro q hq
          have := scanAsciiAux_mem_le n _ _ q hq
          simp only [List.length_cons] at this ⊢
          omega
        · rw [if_neg hm]; exact ih _ _
      · rw [if_neg hb]; exact ih _ _

theorem scanU16Aux_sorted {m : Nat} :
    ∀ fuel pos l,
      List.Pairwise (fun p q : Nat × List Nat => p.1 < q.1) (scanU16Aux m fuel pos l) := by
  intro fuel
  induction fuel with
  | zero => intro pos l; simp [scanU16Aux]
  | succ n ih =>
    intro pos l
    match l with
    | [] => simp [scanU16Aux]
    | b :: rest =>
      rw [scanU16Aux_succ_cons]
      by_cases hg : m ≤ u16Chain (b :: rest) ∧ 1 ≤ u16Chain (b :: rest)
      · rw [if_pos hg]
        rw [List.pairwise_cons]
        refine ⟨?_, ih _ _⟩
        intro q hq
        have := scanU16Aux_mem_le n _ _ q hq
        have := hg.2
        omega
      · rw [if_neg hg]; exact ih _ _

/-- Claim C4 (amended): iter_strings yields exactly the maximal ASCII
printable runs of length at least minlen (first pass) and, when unicode
scanning is enabled, exactly the maximal UTF-16LE pair runs of at least
minlen characters (second pass); each pass is yielded in strictly ascending
offset order, and the whole sequence is ascending when unicode scanning is
disabled — but with unicode enabled the UTF-16LE pass restarts at low
offsets after the ASCII pass, so ascending order over the whole yielded
sequence does not hold in general. -/
theorem iter_strings_c4 (buf : List Nat) (minlen : Nat) :
    iter_strings buf minlen true = ascii_strings buf minlen ++ unicode_strings buf minlen ∧
    iter_strings buf minlen false = ascii_strings buf minlen ∧
    (∀ off run, ((off, run) ∈ ascii_strings buf minlen ↔ asciiRunAt minlen buf off run)) ∧
    (∀ off run, ((off, run) ∈ unicode_strings buf minlen ↔ u16RunAt minlen buf off run)) ∧
    List.Pairwise (fun p q : Nat × List Nat => p.1 < q.1) (ascii_strings buf minlen) ∧
    List.Pairwise (fun p q : Nat × List Nat => p.1 < q.1) (unicode_strings buf minlen) := by
  refine ⟨rfl, by simp [iter_strings], ?_, ?_, ?_, ?_⟩
  · intro off run
    have h := scanAscii_mem_iff (m := minlen) buf.length buf 0 off run (Nat.le_refl _)
    rw [Nat.zero_add] at h
    exact h
  · intro off run
    have h := scanU16_mem_iff (m := minlen) buf.length buf 0 off run (Nat.le_refl _)
    rw [Nat.zero_add] at h
    exact h
  · exact scanAsciiAux_sorted buf.length 0 buf
  · exact scanU16Aux_sorted buf.length 0 buf

/-- Claim C4 counterexample: a chunk holding a UTF-16LE run at offset 0
followed by an ASCII run at offset 6 yields the ASCII candidate first, so the
yielded sequence (6, ...), (0, ...) is not in ascending offset order. -/
theorem iter_strings_order_counterexample :
    iter_strings [65, 0, 66, 0, 67, 0, 97, 98, 99] 3 true =
      [(6, [97, 98, 99]), (0, [65, 0, 66, 0, 67, 0])] ∧
    (iter_strings [65, 0, 66, 0, 67, 0, 97, 98, 99] 3 true).map Prod.fst = [6, 0] ∧
    ¬ List.Pairwise (fun p q : Nat × List Nat => p.1 ≤ q.1)
      (iter_strings [65, 0, 66, 0, 67, 0, 97, 98, 99] 3 true) := by
  refine ⟨by decide, by decide, ?_⟩
  intro h
  rw [show iter_strings [65, 0, 66, 0, 67, 0, 97, 98, 99] 3 true =
    [(6, [97, 98, 99]), (0, [65, 0, 66, 0, 67, 0])] by decide,
    List.pairwise_cons] at h
  have := h.1 (0, [65, 0, 66, 0, 67, 0]) (by decide)
  omega

/-! ## C7: the lexicographic sort -/

theorem charsCmp_swap : ∀ a b : List Char, charsCmp b a = (charsCmp a b).swap := by
  intro a
  induction a with
  | nil => intro b; cases b <;> rfl
  | cons x xs ih =>
    intro b
    cases b with
    | nil => rfl
    | cons y ys =>
      simp only [charsCmp]
      rcases Nat.lt_trichotomy x.toNat y.toNat with h | h | h
      · rw [if_pos h, if_neg (by omega), if_pos h]; rfl
      · rw [if_neg (by omega), if_neg (by omega), if_neg (by omega), if_neg (by omega)]
        exact ih ys
      · rw [if_pos h, if_neg (by omega), if_pos h]; rfl

theorem charsCmp_eq_congr :
    ∀ a b : List Char, charsCmp a b = .eq → ∀ c, charsCmp b c = charsCmp a c := by
  intro a
  induction a with
  | nil =>
    intro b hb c
    cases b with
    | nil => rfl
    | cons y ys => simp [charsCmp] at hb
  | cons x xs ih =>
    intro b hb c
    cases b with
    | nil => simp [charsCmp] at hb
    | cons y ys =>
      simp only [charsCmp] at hb
      by_cases h1 : x.toNat < y.toNat
      · rw [if_pos h1] at hb; cases hb
      · by_cases h2 : y.toNat < x.toNat
        · rw [if_neg h1, if_pos h2] at hb; cases hb
        · rw [if_neg h1, if_neg h2] at hb
          have hxy : x.toNat = y.toNat := by omega
          cases c with
          | nil => rfl
          | cons z zs =>
            simp only [charsCmp, hxy]
            by_cases h3 : y.toNat < z.toNat
            · rw [if_pos h3, if_pos h3]
            · rw [if_neg h3, if_neg h3]
              by_cases h4 : z.toNat < y.toNat
              · rw [if_pos h4, if_pos h4]
              · rw [if_neg h4, if_neg h4]
                exact ih ys hb zs

theorem charsCmp_le_trans :
    ∀ a b c : List Char, charsCmp a b ≠ .gt → charsCmp b c ≠ .gt → charsCmp a c ≠ .gt := by
  intro a
  induction a with
  | nil =>
    intro b c _ _
    cases c <;> simp [charsCmp]
  | cons x xs ih =>
    intro b c h1 h2
    cases b with
    | nil => simp [charsCmp] at h1
    | cons y ys =>
      cases c with
      | nil => simp [charsCmp] at h2
      | cons z zs =>
        simp only [charsCmp] at h1 h2 ⊢
        by_cases hxy : x.toNat < y.toNat
        · by_cases hyz : y.toNat < z.toNat
          · rw [if_pos (by omega)]; simp
          · by_cases hzy : z.toNat < y.toNat
            · rw [if_neg hyz, if_pos hzy] at h2; simp at h2
            · rw [if_pos (by omega)]; simp
        · by_cases hyx : y.toNat < x.toNat
          · rw [if_neg hxy, if_pos hyx] at h1; simp at h1
          · rw [if_neg hxy, if_neg hyx] at h1
            by_cases hyz : y.toNat < z.toNat
            · rw [if_pos (by omega)]; simp
            · by_cases hzy : z.toNat < y.toNat
              · rw [if_neg hyz, if_pos hzy] at h2; simp at h2
              · rw [if_neg hyz, if_neg hzy] at h2
                rw [if_neg (by omega), if_neg (by omega)]
                exact ih ys zs h1 h2

theorem charsCmp_eq_congr_right :
    ∀ a b c : List Char, charsCmp b c = .eq → charsCmp a b = charsCmp a c := by
  intro a b c h
  have hcb : charsCmp c b = .eq := by
    rw [charsCmp_swap b c, h]; rfl
  have h1 := charsCmp_eq_congr c b hcb a
  rw [charsCmp_swap a b, charsCmp_swap a c] at h1
  have h2 := congrArg Ordering.swap h1
  simpa using h2

theorem charsCmp_lt_trans {a b c : List Char}
    (h1 : charsCmp a b = .lt) (h2 : charsCmp b c = .lt) : charsCmp a c = .lt := by
  have hle : charsCmp a c ≠ .gt :=
    charsCmp_le_trans a b c (by simp [h1]) (by simp [h2])
  rcases hoc : charsCmp a c with _ | _ | _
  · rfl
  · exfalso
    have hca : charsCmp c a = .eq := by rw [charsCmp_swap a c, hoc]; rfl
    have he := charsCmp_eq_congr c a hca b
    have hcb : charsCmp c b = .gt := by rw [charsCmp_swap b c, h2]; rfl
    rw [h1, hcb] at he
    cases he
  · exact absurd hoc hle

theorem charsCmp_lt_le_trans {a b c : List Char}
    (h1 : charsCmp a b = .lt) (h2 : charsCmp b c ≠ .gt) : charsCmp a c = .lt := by
  rcases hbc : charsCmp b c with _ | _ | _
  · exact charsCmp_lt_trans h1 hbc
  · rw [← charsCmp_eq_congr_right a b c hbc]; exact h1
  · exact absurd hbc h2

theorem charsCmp_le_lt_trans {a b c : List Char}
    (h1 : charsCmp a b ≠ .gt) (h2 : charsCmp b c = .lt) : charsCmp a c = .lt := by
  rcases hab : charsCmp a b with _ | _ | _
  · exact charsCmp_lt_trans hab h2
  · rw [charsCmp_eq_congr a b hab c] at h2; exact h2
  · exact absurd hab h1

theorem rowCmp_swap (a b : CleanRow) : rowCmp b a = (rowCmp a b).swap := by
  unfold rowCmp strCmp
  rw [charsCmp_swap a.timestamp.data b.timestamp.data,
    charsCmp_swap a.kind.data b.kind.data,
    charsCmp_swap a.offset.data b.offset.data]
  cases charsCmp a.timestamp.data b.timestamp.data <;>
    cases charsCmp a.kind.data b.kind.data <;>
    cases charsCmp a.offset.data b.offset.data <;> rfl

theorem rowLe_trans {a b c : CleanRow} (h1 : rowLe a b) (h2 : rowLe b c) : rowLe a c := by
  unfold rowLe rowCmp strCmp at h1 h2 ⊢
  rcases hts1 : charsCmp a.timestamp.data b.timestamp.data with _ | _ | _ <;>
    rw [hts1] at h1 <;>
    rcases hts2 : charsCmp b.timestamp.data c.timestamp.data with _ | _ | _ <;>
    rw [hts2] at h2
  · rw [charsCmp_lt_trans hts1 hts2]; simp
  · rw [← charsCmp_eq_congr_right a.timestamp.data b.timestamp.data c.timestamp.data hts2,
      hts1]
    simp
  · exact absurd rfl h2
  · rw [charsCmp_eq_congr a.timestamp.data b.timestamp.data hts1 c.timestamp.data] at hts2
    rw [hts2]
    simp
  · rw [charsCmp_eq_congr a.timestamp.data b.timestamp.data hts1 c.timestamp.data] at hts2
    rw [hts2]
    rcases hk1 : charsCmp a.kind.data b.kind.data with _ | _ | _ <;>
      rw [hk1] at h1 <;>
      rcases hk2 : charsCmp b.kind.data c.kind.data with _ | _ | _ <;>
      rw [hk2] at h2
    · rw [charsCmp_lt_trans hk1 hk2]; simp
    · rw [← charsCmp_eq_congr_right a.kind.data b.kind.data c.kind.data hk2, hk1]; simp
    · exact absurd rfl h2
    · rw [charsCmp_eq_congr a.kind.data b.kind.data hk1 c.kind.data] at hk2
      rw [hk2]
      simp
    · rw [charsCmp_eq_congr a.kind.data b.kind.data hk1 c.kind.data] at hk2
      rw [hk2]
      exact charsCmp_le_trans _ _ _ h1 h2
    · exact absurd rfl h2
    · exact absurd rfl h1
    · exact absurd rfl h1
    · exact absurd rfl h1
  · exact absurd rfl h2
  · exact absurd rfl h1
  · exact absurd rfl h1
  · exact absurd rfl h1

theorem rowLe_of_lt {a b : CleanRow} (h : rowLt a b = true) : rowLe a b := by
  unfold rowLt at h
  unfold rowLe
  rcases hab : rowCmp a b with _ | _ | _
  · simp
  · rw [hab] at h; exact absurd h (by decide)
  · rw [hab] at h; exact absurd h (by decide)

theorem rowLe_of_not_lt {a b : CleanRow} (h : ¬ rowLt a b = true) : rowLe b a := by
  unfold rowLt at h
  unfold rowLe
  rw [rowCmp_swap]
  rcases hab : rowCmp a b with _ | _ | _
  · rw [hab] at h; exact absurd (by decide) h
  · decide
  · decide

theorem insertRow_mem : ∀ (r : CleanRow) (l : List CleanRow) (x : CleanRow),
    x ∈ insertRow r l ↔ x = r ∨ x ∈ l := by
  intro r l
  induction l with
  | nil => intro x; simp [insertRow]
  | cons y ys ih =>
    intro x
    unfold insertRow
    by_cases h : rowLt r y
    · rw [if_pos h]
      simp only [List.mem_cons]
    · rw [if_neg h]
      simp only [List.mem_cons, ih x]
      tauto

theorem insertRow_pairwise (r : CleanRow) :
    ∀ l, List.Pairwise rowLe l → List.Pairwise rowLe (insertRow r l) := by
  intro l
  induction l with
  | nil => intro _; simp [insertRow]
  | cons y ys ih =>
    intro hp
    rw [List.pairwise_cons] at hp
    obtain ⟨hy, hys⟩ := hp
    unfold insertRow
    by_cases h : rowLt r y
    · rw [if_pos h, List.pairwise_cons]
      constructor
      · intro z hz
        rw [List.mem_cons] at hz
        rcases hz with rfl | hz
        · exact rowLe_of_lt h
        · exact rowLe_trans (rowLe_of_lt h) (hy z hz)
      · rw [List.pairwise_cons]
        exact ⟨hy, hys⟩
    · rw [if_neg h, List.pairwise_cons]
      constructor
      · intro z hz
        rw [insertRow_mem] at hz
        rcases hz with rfl | hz
        · exact rowLe_of_not_lt h
        · exact hy z hz
      · exact ih hys

theorem foldl_insert_pairwise :
    ∀ (l acc : List CleanRow), List.Pairwise rowLe acc →
      List.Pairwise rowLe (List.foldl (fun a r => insertRow r a) acc l) := by
  intro l
  induction l with
  | nil => intro acc h; simpa using h
  | cons r rest ih =>
    intro acc h
    exact ih (insertRow r acc) (insertRow_pairwise r acc h)

theorem sortRows_pairwise (l : List CleanRow) : List.Pairwise rowLe (sortRows l) :=
  foldl_insert_pairwise l [] (by simp)

theorem foldl_insert_mem :
    ∀ (l acc : List CleanRow) (x : CleanRow),
      x ∈ List.foldl (fun a r => insertRow r a) acc l ↔ x ∈ acc ∨ x ∈ l := by
  intro l
  induction l with
  | nil => intro acc x; simp
  | cons r rest ih =>
    intro acc x
    simp only [List.foldl_cons, ih (insertRow r acc) x, insertRow_mem, List.mem_cons]
    tauto

theorem mem_sortRows (l : List CleanRow) (x : CleanRow) : x ∈ sortRows l ↔ x ∈ l := by
  unfold sortRows
  rw [foldl_insert_mem]
  simp

/-- Claim C7: the cleaned dataset is sorted ascending by the string triple
(timestamp, kind, offset), offsets compared lexicographically as strings, not
numerically: the example run sorts the offset canonicalized from "42" (that
is, "0x2A", numerically 42) before "0x9" (numerically 9) under equal
timestamp and kind. -/
theorem sort_lex_c7 :
    (∀ (fmt : Int → String) (rows : List RawRow),
        List.Pairwise rowLe (main_clean fmt rows)) ∧
    (main_clean (fun _ => "")
      [{kind := "chat", offset := "42", preview := "", steamid := "", unix_ts := "",
        message := "m2", value := ""},
       {kind := "chat", offset := "0x9", preview := "", steamid := "", unix_ts := "",
        message := "m1", value := ""}]).map CleanRow.offset = ["0x2A", "0x9"] ∧
    charsCmp "0x2A".data "0x9".data = .lt :=
  ⟨fun fmt rows => sortRows_pairwise (cleaned_rows fmt rows), by decide, by decide⟩

/-! ## C1: deduplication -/

theorem outKey_mkClean (fmt : Int → String) (r : RawRow) :
    outKey (mkClean fmt r (kindNorm r)) = dedupKey (kindNorm r) r := rfl

theorem cleanLoop_eq_dedupFirst (fmt : Int → String) :
    ∀ (rows : List RawRow) (seen : List String),
      cleanLoop fmt rows seen = dedupFirst (survivorRows fmt rows) seen := by
  intro rows
  induction rows with
  | nil => intro seen; rfl
  | cons r rest ih =>
    intro seen
    simp only [cleanLoop, survivorRows]
    by_cases hk : keepKind (kindNorm r)
    · rw [if_pos hk, if_pos hk]
      by_cases hd : dropPayload r
      · rw [if_pos hd, if_pos hd]
        exact ih seen
      · rw [if_neg hd, if_neg hd]
        simp only [dedupFirst, outKey_mkClean]
        by_cases hm : dedupKey (kindNorm r) r ∈ seen
        · rw [if_pos hm, if_pos hm]
          exact ih seen
        · rw [if_neg hm, if_neg hm]
          rw [ih (dedupKey (kindNorm r) r :: seen)]
    · rw [if_neg hk, if_neg hk]
      exact ih seen

theorem dedupFirst_keys :
    ∀ (l : List CleanRow) (seen : List String),
      ((dedupFirst l seen).map outKey).Nodup ∧
      ∀ k ∈ (dedupFirst l seen).map outKey, k ∉ seen := by
  intro l
  induction l with
  | nil => intro seen; simp [dedupFirst]
  | cons c rest ih =>
    intro seen
    unfold dedupFirst
    by_cases hm : outKey c ∈ seen
    · rw [if_pos hm]; exact ih seen
    · rw [if_neg hm]
      obtain ⟨ihn, ihs⟩ := ih (outKey c :: seen)
      refine ⟨?_, ?_⟩
      · simp only [List.map_cons, List.nodup_cons]
        exact ⟨fun hc => (ihs _ hc) (List.mem_cons_self _ _), ihn⟩
      · intro k hk
        simp only [List.map_cons, List.mem_cons] at hk
        rcases hk with rfl | hk
        · exact hm
        · exact fun hks => (ihs k hk) (List.mem_cons_of_mem _ hks)

/-- Claim C1 (amended): deduplication runs on the joined string
kind|steamid|message|value (the lowered kind and the raw steamid, message and
value fields joined with pipe characters): the cleaned set is exactly the
first-occurrence-per-joined-key subsequence of the normalized surviving
stream, in input order, and no two cleaned records share a joined key.
Because the key is a pipe-join and not the field tuple, two surviving records
whose distinct (steamid, message, value) tuples happen to join to the same
string also collapse. -/
theorem dedup_c1 (fmt : Int → String) (rows : List RawRow) :
    cleaned_rows fmt rows = dedupFirst (survivorRows fmt rows) [] ∧
    ((cleaned_rows fmt rows).map outKey).Nodup :=
  ⟨cleanLoop_eq_dedupFirst fmt rows [], by
    rw [cleaned_rows, cleanLoop_eq_dedupFirst fmt rows []]
    exact (dedupFirst_keys (survivorRows fmt rows) []).1⟩

/-- Claim C1 counterexample: two surviving chat records with different
(steamid, message, value) tuples — ("", "a|b", "") and ("", "a", "b|") — have
the same pipe-joined key chat||a|b|, so the second (the first record of its
own tuple, with a different tuple than any earlier record) is discarded:
deduplication is not on the field tuple. -/
theorem dedup_tuple_counterexample :
    (cleaned_rows (fun _ => "")
      [{kind := "chat", offset := "1", preview := "", steamid := "", unix_ts := "",
        message := "a|b", value := ""},
       {kind := "chat", offset := "2", preview := "", steamid := "", unix_ts := "",
        message := "a", value := "b|"}]).map
        (fun c => (c.steamid, c.message, c.value)) = [("", "a|b", "")] ∧
    (("" : String), ("a" : String), ("b|" : String)) ≠
      (("" : String), ("a|b" : String), ("" : String)) :=
  ⟨by decide, by decide⟩

/-! ## C8: the domain column -/

theorem cleanLoop_mem_shape (fmt : Int → String) :
    ∀ (rows : List RawRow) (seen : List String) (c : CleanRow),
      c ∈ cleanLoop fmt rows seen → ∃ r, r ∈ rows ∧ c = mkClean fmt r (kindNorm r) := by
  intro rows
  induction rows with
  | nil => intro seen c hc; simp [cleanLoop] at hc
  | cons r rest ih =>
    intro seen c hc
    simp only [cleanLoop] at hc
    by_cases hk : keepKind (kindNorm r)
    · rw [if_pos hk] at hc
      by_cases hd : dropPayload r
      · rw [if_pos hd] at hc
        obtain ⟨r', hr', he⟩ := ih seen c hc
        exact ⟨r', List.mem_cons_of_mem _ hr', he⟩
      · rw [if_neg hd] at hc
        by_cases hm : dedupKey (kindNorm r) r ∈ seen
        · rw [if_pos hm] at hc
          obtain ⟨r', hr', he⟩ := ih seen c hc
          exact ⟨r', List.mem_cons_of_mem _ hr', he⟩
        · rw [if_neg hm] at hc
          rw [List.mem_cons] at hc
          rcases hc with rfl | hc
          · exact ⟨r, List.mem_cons_self _ _, rfl⟩
          · obtain ⟨r', hr', he⟩ := ih _ c hc
            exact ⟨r', List.mem_cons_of_mem _ hr', he⟩
    · rw [if_neg hk] at hc
      obtain ⟨r', hr', he⟩ := ih seen c hc
      exact ⟨r', List.mem_cons_of_mem _ hr', he⟩

/-- Claim C8 (amended): in every cleaned record the domain field equals the
lower-cased host of the value parsed from a leading scheme://host pattern
when the record's normalized kind is url, and is empty otherwise; hence a
non-empty domain occurs only on url records, but a url record whose value
does not match the pattern (or is empty) carries an empty domain, so
"populated if and only if url" fails in the if direction. -/
theorem domain_c8 (fmt : Int → String) (rows : List RawRow) :
    (∀ c ∈ main_clean fmt rows,
        c.domain = if pyLower (pyStrip c.kind) == "url" then domain_of c.value else "") ∧
    (∀ c ∈ main_clean fmt rows, c.domain ≠ "" → pyLower (pyStrip c.kind) = "url") := by
  have hmem : ∀ c ∈ main_clean fmt rows, ∃ r, r ∈ rows ∧ c = mkClean fmt r (kindNorm r) := by
    intro c hc
    rw [main_clean, mem_sortRows] at hc
    exact cleanLoop_mem_shape fmt rows [] c hc
  constructor
  · intro c hc
    obtain ⟨r, _, rfl⟩ := hmem c hc
    rfl
  · intro c hc hne
    obtain ⟨r, _, rfl⟩ := hmem c hc
    by_cases hu : kindNorm r == "url"
    · have he : kindNorm r = "url" := by simpa using hu
      exact he
    · exfalso
      apply hne
      show (if kindNorm r == "url" then domain_of r.value else "") = ""
      rw [if_neg hu]

theorem domain_c8_witness :
    mkClean (fun _ => "") exRowUrl "url" ∈ main_clean (fun _ => "") [exRowUrl] ∧
    (mkClean (fun _ => "") exRowUrl "url").domain = "steamcommunity.com" ∧
    (mkClean (fun _ => "") exRowUrl "url").domain =
      (if pyLower (pyStrip (mkClean (fun _ => "") exRowUrl "url").kind) == "url"
       then domain_of (mkClean (fun _ => "") exRowUrl "url").value else "") :=
  ⟨by decide, by decide,
    (domain_c8 (fun _ => "") [exRowUrl]).1 _ (by decide)⟩

/-- Claim C8 counterexample: a surviving record of kind url whose value "x"
matches no scheme://host pattern is written with an empty domain, so domain
is not populated for every url record. -/
theorem domain_counterexample :
    (main_clean (fun _ => "") [exRowUrlNoHost]).map CleanRow.kind = ["url"] ∧
    (main_clean (fun _ => "") [exRowUrlNoHost]).map CleanRow.domain = [""] :=
  ⟨by decide, by decide⟩

/-! ## C6/C10: hex_off -/

theorem hexDigitC_upper (d : Nat) (hd : d < 16) : isUpHexC (hexDigitC d) = true := by
  interval_cases d <;> decide

theorem natHexAux_upper :
    ∀ (fuel n : Nat), (natHexAux fuel n).all isUpHexC = true := by
  intro fuel
  induction fuel with
  | zero => intro n; rfl
  | succ f ih =>
    intro n
    cases n with
    | zero => rfl
    | succ k =>
      simp only [natHexAux, List.all_append, Bool.and_eq_true]
      exact ⟨ih ((k + 1) / 16), by
        simp only [List.all_cons, List.all_nil, Bool.and_true]
        exact hexDigitC_upper _ (Nat.mod_lt _ (by omega))⟩

theorem isCanonHex_natHex (n : Nat) : isCanonHex ("0x" ++ natHex n) = true := by
  by_cases hn : n = 0
  · subst hn; decide
  · unfold natHex
    rw [if_neg hn]
    unfold isCanonHex
    rw [String.data_append]
    obtain ⟨m, rfl⟩ : ∃ m, n = m + 1 := ⟨n - 1, by omega⟩
    show (!(natHexAux (m + 1) (m + 1)).isEmpty &&
      (natHexAux (m + 1) (m + 1)).all isUpHexC) = true
    simp only [natHexAux, Bool.and_eq_true]
    constructor
    · simp
    · have := natHexAux_upper (m + 1) (m + 1)
      simp only [natHexAux] at this
      exact this

theorem startsWith0x_append (s : String) : startsWith0x ("0x" ++ s) = true := by
  unfold startsWith0x
  rw [String.data_append]
  rfl

/-- Claim C6 (amended): hex_off keeps any already 0x-prefixed string exactly
as given (its case and content untouched); a non-0x-prefixed string that
parses as a non-negative integer maps to 0x followed by uppercase hexadecimal
digits; and hex_off is idempotent on every input. -/
theorem hex_off_c6 :
    (∀ v, startsWith0x v = true → hex_off v = v) ∧
    (∀ (v : String) (n : Int), startsWith0x v = false → pyParseInt v = some n → 0 ≤ n →
        hex_off v = "0x" ++ natHex n.natAbs ∧ isCanonHex (hex_off v) = true) ∧
    (∀ v, hex_off (hex_off v) = hex_off v) := by
  have h0x : ∀ v, startsWith0x v = true → hex_off v = v := by
    intro v h
    unfold hex_off
    rw [if_pos h]
  refine ⟨h0x, ?_, ?_⟩
  · intro v n hs hp hn
    have he : hex_off v = "0x" ++ natHex n.natAbs := by
      have h1 : hex_off v = "0x" ++ intHexPy n := by
        unfold hex_off
        rw [if_neg (by simp [hs]), hp]
      rw [h1]
      unfold intHexPy
      rw [if_neg (by omega : ¬ n < 0)]
    exact ⟨he, by rw [he]; exact isCanonHex_natHex n.natAbs⟩
  · intro v
    by_cases hs : startsWith0x v = true
    · have h1 := h0x v hs
      rw [h1, h1]
    · cases hp : pyParseInt v with
      | none =>
        have h1 : hex_off v = v := by
          unfold hex_off
          rw [if_neg (by simp [hs]), hp]
        rw [h1, h1]
      | some n =>
        have h1 : hex_off v = "0x" ++ intHexPy n := by
          unfold hex_off
          rw [if_neg (by simp [hs]), hp]
        rw [h1]
        exact h0x _ (startsWith0x_append (intHexPy n))

theorem hex_off_c6_witness :
    startsWith0x "0x2A" = true ∧ hex_off "0x2A" = "0x2A" ∧
    pyParseInt "42" = some 42 ∧ hex_off "42" = "0x" ++ natHex (Int.natAbs 42) ∧
    isCanonHex (hex_off "42") = true ∧ hex_off (hex_off "42") = hex_off "42" :=
  ⟨by decide, hex_off_c6.1 "0x2A" (by decide), by decide,
    (hex_off_c6.2.1 "42" 42 (by decide) (by decide) (by decide)).1,
    (hex_off_c6.2.1 "42" 42 (by decide) (by decide) (by decide)).2,
    hex_off_c6.2.2 "42"⟩

/-- Claim C6 counterexample: the accepted hex-prefixed input "0x2a" is
returned unchanged as "0x2a", which is not of the form 0x followed by
uppercase hexadecimal digits — so not every accepted input maps to
uppercase canonical form. -/
theorem hex_off_case_counterexample :
    startsWith0x "0x2a" = true ∧ hex_off "0x2a" = "0x2a" ∧ isCanonHex "0x2a" = false :=
  ⟨by decide, by decide, by decide⟩

/-- Claim C10: every input that neither starts with 0x nor parses as an
integer is returned unchanged (no exception escapes: the embedding is total
and the except-branch value v-or-empty is v itself, the empty string mapping
to the empty string). -/
theorem hex_off_fallback_c10 :
    (∀ v, startsWith0x v = false → pyParseInt v = none → hex_off v = v) ∧
    hex_off "" = "" := by
  constructor
  · intro v hs hp
    unfold hex_off
    rw [if_neg (by simp [hs]), hp]
  · decide

theorem hex_off_fallback_c10_witness :
    startsWith0x "zz" = false ∧ pyParseInt "zz" = none ∧ hex_off "zz" = "zz" :=
  ⟨by decide, by decide, hex_off_fallback_c10.1 "zz" (by decide) (by decide)⟩

end SteamForensics
